import Mathlib

/-!
Verification of the generic AVL tree implementation (`src/bstree.c`).

Shallow embedding of the C sources.  A C `struct bstree_node *` is either
`NULL` or a node holding an opaque object, two children, a duplicate count and
a cached height; we model it as the inductive `BTree`.  C `int` fields
(`count`, `height`) are modelled as `Int` (all values occurring in the
algorithms stay far away from machine-word overflow).  The ops descriptor
carries the user comparator and whether a destructor (`free_object`) was
supplied; since freeing memory has no structural effect, mutating functions
return the resulting tree *paired with the list of objects passed to
`free_object`*, in call order.
-/

namespace Bst

/-- The C `struct bstree_node` (bstree.c:31-37): `NULL` is `nil`; a node
carries `object`, `left`, `right`, `count`, `height`. -/
inductive BTree (α : Type) where
  | nil : BTree α
  | node (object : α) (left : BTree α) (right : BTree α)
         (count : Int) (height : Int) : BTree α
deriving DecidableEq, Repr

/-- The C `struct bstree_ops` (bstree.c:39-48): the user comparator, and
whether a `free_object` destructor is present (`free_object != NULL`). -/
structure Ops (α : Type) where
  compare_object : α → α → Int
  free_object : Bool

variable {α : Type} {σ : Type}

open BTree

/-- Function `height_` (bstree.c:58-61): `root ? root->height : -1`. -/
def height_ : BTree α → Int
  | nil => -1
  | node _ _ _ _ h => h

/-- Function `int_max_` (bstree.c:53-56). -/
def int_max_ (a b : Int) : Int := if a > b then a else b

/-- Function `mknode_` (bstree.c:65-74): fresh single-node tree, `count = 1`,
`height = 0`. -/
def mknode_ (object : α) : BTree α :=
  node object nil nil 1 0

/-- Function `rotate_with_left_` (bstree.c:76-85): `newroot = root->left`,
`root->left = newroot->right`, `newroot->right = root`, then both heights are
recomputed from the (already correct) children caches.  The C code
dereferences `root->left`; it is only called when that child is non-`NULL`,
so the remaining patterns (never reached from `balance_`) return the input
unchanged. -/
def rotate_with_left_ : BTree α → BTree α
  | node o (node lo ll lr lc _) r c _ =>
      let rootH := int_max_ (height_ lr) (height_ r) + 1
      node lo ll (node o lr r c rootH) lc (int_max_ (height_ ll) rootH + 1)
  | t => t

/-- Function `rotate_with_right_` (bstree.c:87-96), mirror image: `newroot =
root->right`, `root->right = newroot->left`, `newroot->left = root`. -/
def rotate_with_right_ : BTree α → BTree α
  | node o l (node ro rl rr rc _) c _ =>
      let rootH := int_max_ (height_ l) (height_ rl) + 1
      node ro (node o l rl c rootH) rr rc (int_max_ rootH (height_ rr) + 1)
  | t => t

/-- Function `double_with_left_` (bstree.c:98-103). -/
def double_with_left_ : BTree α → BTree α
  | node o l r c h => rotate_with_left_ (node o (rotate_with_right_ l) r c h)
  | nil => nil

/-- Function `double_with_right_` (bstree.c:105-110). -/
def double_with_right_ : BTree α → BTree α
  | node o l r c h => rotate_with_right_ (node o l (rotate_with_left_ r) c h)
  | nil => nil

/-- The final `root->height = int_max_(height_(root->left),
height_(root->right)) + 1` assignment of `balance_` (bstree.c:136). -/
def fix_height : BTree α → BTree α
  | nil => nil
  | node o l r c _ => node o l r c (int_max_ (height_ l) (height_ r) + 1)

/-- Function `balance_` (bstree.c:118-138).  `MAX_IMBALANCE = 1`.  Note the strict `>`
comparisons of the grandchild heights on lines 124 and 130: on a tie the
*double* rotation is chosen.  In each rotation branch the dereferenced child
is non-`NULL` whenever the height caches are correct (its cached height is
`≥ 0`); the `nil` fallbacks mirror what the total Lean function must return
on junk trees the C code would crash on. -/
def balance_ : BTree α → BTree α
  | nil => nil
  | node o l r c h =>
      fix_height
        (if height_ l - height_ r > 1 then
          (match l with
           | node _ ll lr _ _ =>
               if height_ ll > height_ lr then
                 rotate_with_left_ (node o l r c h)
               else
                 double_with_left_ (node o l r c h)
           | nil => node o l r c h)
        else if height_ r - height_ l > 1 then
          (match r with
           | node _ rl rr _ _ =>
               if height_ rr > height_ rl then
                 rotate_with_right_ (node o l r c h)
               else
                 double_with_right_ (node o l r c h)
           | nil => node o l r c h)
        else node o l r c h)

/-- Function `get_min_` (bstree.c:140-146): iterative descent to the leftmost node;
returns `NULL` on an empty tree. -/
def get_min_ : BTree α → BTree α
  | nil => nil
  | node o nil r c h => node o nil r c h
  | node _ (node lo ll lr lc lh) _ _ _ => get_min_ (node lo ll lr lc lh)

/-- Function `insert_` (bstree.c:148-171).  Second component: objects handed to
`ops->free_object`, in call order (an equal-key insert frees the incoming
object when the container owns payloads). -/
def insert_ (ops : Ops α) : BTree α → α → BTree α × List α
  | nil, object => (mknode_ object, [])
  | node o l r c h, object =>
      if ops.compare_object object o < 0 then
        let res := insert_ ops l object
        (balance_ (node o res.1 r c h), res.2)
      else if ops.compare_object object o > 0 then
        let res := insert_ ops r object
        (balance_ (node o l res.1 c h), res.2)
      else
        (balance_ (node o l r (c + 1) h),
         if ops.free_object then [object] else [])

/-- Function `replace_` (bstree.c:173-196).  Equal key: free the stored object if
owned, then overwrite the stored pointer with the new one (count kept). -/
def replace_ (ops : Ops α) : BTree α → α → BTree α × List α
  | nil, object => (mknode_ object, [])
  | node o l r c h, object =>
      if ops.compare_object object o < 0 then
        let res := replace_ ops l object
        (balance_ (node o res.1 r c h), res.2)
      else if ops.compare_object object o > 0 then
        let res := replace_ ops r object
        (balance_ (node o l res.1 c h), res.2)
      else
        (balance_ (node object l r c h),
         if ops.free_object then [o] else [])

/-- Function `count_` (bstree.c:243-256). -/
def count_ (ops : Ops α) : BTree α → α → Int
  | nil, _ => 0
  | node o l r c _, object =>
      if ops.compare_object object o < 0 then count_ ops l object
      else if ops.compare_object object o > 0 then count_ ops r object
      else c

/-- Function `search_` (bstree.c:258-271): `NULL` result becomes `none`. -/
def search_ (ops : Ops α) : BTree α → α → Option α
  | nil, _ => none
  | node o l r _ _, key =>
      if ops.compare_object key o < 0 then search_ ops l key
      else if ops.compare_object key o > 0 then search_ ops r key
      else some o

/-- Function `remove_` (bstree.c:273-310).  The two-children case copies the in-order
successor's *object only* into the root slot (`root->object =
right_min->object`, line 307 — the successor's `count` is **not** copied),
then removes the successor's key from the right subtree with `tmp_ops`, a
copy of `ops` whose `free_object` is `NULL`.  Frees happen in source order:
the removed node's object first (if owned), then whatever the inner removal
frees (nothing, since its destructor is suppressed). -/
def remove_ (ops : Ops α) : BTree α → α → BTree α × List α
  | nil, _ => (nil, [])
  | node o l r c h, key =>
      if ops.compare_object key o < 0 then
        let res := remove_ ops l key
        (balance_ (node o res.1 r c h), res.2)
      else if ops.compare_object key o > 0 then
        let res := remove_ ops r key
        (balance_ (node o l res.1 c h), res.2)
      else
        match l, r with
        | nil, _ => (r, if ops.free_object then [o] else [])
        | node lo ll lr lc lh, nil =>
            (node lo ll lr lc lh, if ops.free_object then [o] else [])
        | node lo ll lr lc lh, node ro rl rr rc rh =>
            match get_min_ (node ro rl rr rc rh) with
            | node mo _ _ _ _ =>
                let res := remove_ { ops with free_object := false }
                    (node ro rl rr rc rh) mo
                (balance_ (node mo (node lo ll lr lc lh) res.1 c h),
                 (if ops.free_object then [o] else []) ++ res.2)
            | nil => (node o l r c h, [])  -- unreachable: min of a node

/-- Function `size_` (bstree.c:312-318). -/
def size_ : BTree α → Int
  | nil => 0
  | node _ l r _ _ => size_ l + size_ r + 1

/-- Function `traverse_inorder_` (bstree.c:211-219).  The C visitor
`operation(object, it_data)` mutates `it_data` and returns nonzero to stop;
we model it as `α → σ → σ × Bool` and thread the state.  The C body
`root && (go left || operation(...) || go right)` short-circuits exactly as
written here. -/
def traverse_inorder_ : BTree α → σ → (α → σ → σ × Bool) → σ × Bool
  | nil, s, _ => (s, false)
  | node o l r _ _, s, op =>
      let resL := traverse_inorder_ l s op
      if resL.2 then (resL.1, true)
      else
        let resO := op o resL.1
        if resO.2 then (resO.1, true)
        else traverse_inorder_ r resO.1 op

/-- Loop body of `traverse_inorder_cnt_`: the `for (i = 0; i < root->count; i++)` loop of
`traverse_inorder_cnt_` (bstree.c:232-236): visit `object` up to `n` times,
stopping early on the first stop signal.  A non-positive C `count` runs the
loop zero times, hence the `Int.toNat` at the call site. -/
def visit_rep_ (op : α → σ → σ × Bool) (o : α) : Nat → σ → σ × Bool
  | 0, s => (s, false)
  | n + 1, s =>
      let res := op o s
      if res.2 then (res.1, true) else visit_rep_ op o n res.1

/-- Function `traverse_inorder_cnt_` (bstree.c:221-241): as `traverse_inorder_` but
the node's object is visited `count` times. -/
def traverse_inorder_cnt_ : BTree α → σ → (α → σ → σ × Bool) → σ × Bool
  | nil, s, _ => (s, false)
  | node o l r c _, s, op =>
      let resL := traverse_inorder_cnt_ l s op
      if resL.2 then (resL.1, true)
      else
        let resO := visit_rep_ op o c.toNat resL.1
        if resO.2 then (resO.1, true)
        else traverse_inorder_cnt_ r resO.1 op

/-! ## The public container handle (bstree.c:320-388) -/

/-- The C `struct bstree`: root pointer plus the ops descriptor. -/
structure Bstree (α : Type) where
  root : BTree α
  ops : Ops α

/-- Function `bstree_new` (bstree.c:323-334): empty container. -/
def bstree_new (compare_object : α → α → Int) (free_object : Bool) :
    Bstree α :=
  ⟨nil, ⟨compare_object, free_object⟩⟩

/-- Function `bstree_insert` (bstree.c:343-346). -/
def bstree_insert (t : Bstree α) (object : α) : Bstree α :=
  { t with root := (insert_ t.ops t.root object).1 }

/-- Function `bstree_replace` (bstree.c:348-351). -/
def bstree_replace (t : Bstree α) (object : α) : Bstree α :=
  { t with root := (replace_ t.ops t.root object).1 }

/-- Function `bstree_remove` (bstree.c:375-378). -/
def bstree_remove (t : Bstree α) (key : α) : Bstree α :=
  { t with root := (remove_ t.ops t.root key).1 }

/-- Function `bstree_count` (bstree.c:365-368). -/
def bstree_count (t : Bstree α) (key : α) : Int :=
  count_ t.ops t.root key

/-- Function `bstree_search` (bstree.c:370-373). -/
def bstree_search (t : Bstree α) (key : α) : Option α :=
  search_ t.ops t.root key

/-- Function `bstree_size` (bstree.c:380-383). -/
def bstree_size (t : Bstree α) : Int :=
  size_ t.root

/-- Function `bstree_height` (bstree.c:385-388). -/
def bstree_height (t : Bstree α) : Int :=
  height_ t.root

/-- Comparator `cmp_int` from the driver (`src/main.c`): `*lhs - *rhs`. -/
def cmp_int : Int → Int → Int := fun a b => a - b



/-! Invariant predicates (Boolean, so concrete instances are decidable).
They are stated over the embedded trees exactly as the spec states them over
the C structures. -/

/-- AVL balance: every node satisfies
`|height(left) - height(right)| <= 1`, measured on the cached heights the
code itself uses. -/
def avlOkB : BTree α → Bool
  | nil => true
  | node _ l r _ _ =>
      decide (height_ l - height_ r ≤ 1) &&
      decide (height_ r - height_ l ≤ 1) && avlOkB l && avlOkB r

/-- Height-cache correctness: every node's cached `height` equals
`1 + max(height(left), height(right))` with absent children at `-1`. -/
def hcOkB : BTree α → Bool
  | nil => true
  | node _ l r _ h =>
      decide (h = int_max_ (height_ l) (height_ r) + 1) && hcOkB l && hcOkB r

/-- All keys (under a key abstraction `kf` of the stored objects) in the tree
satisfy `p`. -/
def allKeysB (kf : α → Int) (p : Int → Bool) : BTree α → Bool
  | nil => true
  | node o l r _ _ => p (kf o) && allKeysB kf p l && allKeysB kf p r

/-- The search-tree order invariant with respect to a key abstraction
`kf`. -/
def bstB (kf : α → Int) : BTree α → Bool
  | nil => true
  | node o l r _ _ =>
      allKeysB kf (fun k => decide (k < kf o)) l &&
      allKeysB kf (fun k => decide (kf o < k)) r && bstB kf l && bstB kf r

/-- Every node's duplicate count is at least 1 (an invariant of every
container state). -/
def cntPosB : BTree α → Bool
  | nil => true
  | node _ l r c _ => decide (1 ≤ c) && cntPosB l && cntPosB r

/-- In-order list of `(object, count)` pairs. -/
def sem : BTree α → List (α × Int)
  | nil => []
  | node o l r c _ => sem l ++ (o, c) :: sem r

/-- In-order list of objects (what the plain traversal visits). -/
def inorder : BTree α → List α
  | nil => []
  | node o l r _ _ => inorder l ++ o :: inorder r

/-- In-order list of objects with multiplicity (what the counted traversal
visits). -/
def cntList : BTree α → List α
  | nil => []
  | node o l r c _ => cntList l ++ List.replicate c.toNat o ++ cntList r

/-- Number of nodes whose key (under `kf`) is `k`. -/
def occK (kf : α → Int) (k : Int) : BTree α → Nat
  | nil => 0
  | node o l r _ _ =>
      occK kf k l + (if kf o = k then 1 else 0) + occK kf k r

/-- An ops descriptor whose comparator is induced by a key abstraction
`kf` (difference of keys, like `cmp_int` in `src/main.c`). -/
def keyOps (kf : α → Int) (f : Bool) : Ops α :=
  ⟨fun a b => kf a - kf b, f⟩

/-- The driver's integer ops (`cmp_int` comparator from `src/main.c`),
parameterized by whether a destructor is supplied. -/
def opsInt (f : Bool) : Ops Int := ⟨cmp_int, f⟩

/-! Sequences of public mutating operations, for the "after any sequence of
operations on a container created empty" claims. -/

/-- One public mutating call. -/
inductive Op (α : Type) where
  | ins (object : α)
  | rep (object : α)
  | rem (key : α)

/-- Apply one public mutating call to the container handle. -/
def bstree_apply (t : Bstree α) : Op α → Bstree α
  | .ins x => bstree_insert t x
  | .rep x => bstree_replace t x
  | .rem k => bstree_remove t k

/-- Run a sequence of public mutating calls on a freshly created
container. -/
def bstree_run (cmp : α → α → Int) (f : Bool) (l : List (Op α)) : Bstree α :=
  l.foldl bstree_apply (bstree_new cmp f)

/-- The fourteen insertions of the balance counterexample: they build a
valid AVL tree of height 4 whose root's right subtree (rooted at 16) has two
children of equal height 2, with the inner grandchild (rooted at 12)
left-heavy. -/
def c1inserts : List (Op Int) :=
  [Op.ins 8, Op.ins 2, Op.ins 16, Op.ins 1, Op.ins 3, Op.ins 12, Op.ins 18,
   Op.ins 0, Op.ins 10, Op.ins 13, Op.ins 17, Op.ins 19, Op.ins 9, Op.ins 20]

/-- Left child of `tieTree`. -/
def tieL : BTree Int :=
  node 2 (node 1 nil nil 1 0) (node 3 nil nil 1 0) 1 1

/-- Outer grandchild of `tieTree` on the heavier (right) side. -/
def tieRR : BTree Int :=
  node 18 (node 17 nil nil 1 0) (node 19 nil (node 20 nil nil 1 0) 1 1) 1 2

/-- Inner grandchild of `tieTree` on the heavier (right) side. -/
def tieRL : BTree Int :=
  node 12 (node 10 (node 9 nil nil 1 0) nil 1 1) (node 13 nil nil 1 0) 1 2

/-- Right child of `tieTree`. -/
def tieR : BTree Int := node 16 tieRL tieRR 1 3

/-- The subtree configuration handed to `balance_` by the removal of key `0`
from the `c1inserts` tree: right-heavy by 2 at the root, the right child's
two subtrees tied at height 2, the inner grandchild (12) left-heavy. -/
def tieTree : BTree Int := node 8 tieL tieR 1 4

/-- Claim C1 (refutation): the container built by the fourteen `c1inserts`
insertions satisfies the AVL balance invariant, but after the subsequent
`remove(0)` returns, the node holding 16 has children of heights 0 and 2 —
the balance invariant is violated.  This contradicts the claim (and the
code's own comment, bstree.c:112-116). -/
theorem claim_C1_remove_breaks_balance :
    avlOkB (bstree_run cmp_int false c1inserts).root = true ∧
    avlOkB (bstree_run cmp_int false (c1inserts ++ [Op.rem 0])).root
      = false := by
  constructor <;> decide

/-- Claim C2 (refutation of the count-copy part): in the tree built by
inserting 2, 1, 3, 3 with an owning descriptor, key 3 has count 2; removing
key 2 (a two-children node whose in-order successor is the 3-node) leaves the
surviving node with the *removed* node's count 1, not the successor's
count 2.  The rest of the claim is visible in the result: only the removed
object 2 is freed (the relocated successor object 3 is not). -/
theorem claim_C2_count_not_copied :
    count_ (opsInt true)
      (bstree_run cmp_int true [Op.ins 2, Op.ins 1, Op.ins 3, Op.ins 3]).root
      3 = 2 ∧
    remove_ (opsInt true)
      (bstree_run cmp_int true [Op.ins 2, Op.ins 1, Op.ins 3, Op.ins 3]).root
      2 = (node 3 (node 1 nil nil 1 0) nil 1 1, [2]) := by
  constructor <;> decide

/-- Claim C3 (refutation of the tie-break direction): `tieTree` has balance
factor magnitude 2 with both children AVL-valid, and the two grandchild
heights on the heavier side are equal (the inner grandchild is *not*
strictly taller than the outer one).  The claim says the single rotation is
selected; the code (bstree.c:130, strict `>`) selects the double rotation,
whose result here violates the AVL invariant, whereas the single rotation
would have restored it. -/
theorem claim_C3_tie_selects_double :
    (height_ tieR - height_ tieL = 2 ∧
     avlOkB tieL = true ∧ avlOkB tieR = true) ∧
    height_ tieRR = height_ tieRL ∧
    balance_ tieTree = double_with_right_ tieTree ∧
    balance_ tieTree ≠ rotate_with_right_ tieTree ∧
    avlOkB (balance_ tieTree) = false ∧
    avlOkB (rotate_with_right_ tieTree) = true := by
  refine ⟨?_, ?_, ?_, ?_, ?_, ?_⟩ <;> decide

/-! Inorder-list semantics.  Rotations (hence `balance_`) leave the in-order
`(object, count)` list unchanged, so the functional claims about `insert_`,
`replace_`, `count_`, `search_` and the traversals are settled by relating
each operation to its effect on that list. -/

section KeyedLists

variable (kf : α → Int)

/-- Total count held by entries whose key is `k`. -/
def keyCount (k : Int) : List (α × Int) → Int
  | [] => 0
  | e :: l => (if kf e.1 = k then e.2 else 0) + keyCount k l

/-- Number of entries whose key is `k`. -/
def keyOcc (k : Int) : List (α × Int) → Nat
  | [] => 0
  | e :: l => (if kf e.1 = k then 1 else 0) + keyOcc k l

/-- First object whose key is `k`. -/
def keyFindObj (k : Int) : List (α × Int) → Option α
  | [] => none
  | e :: l => if kf e.1 = k then some e.1 else keyFindObj k l

/-- Keys strictly increase along the list. -/
def sortedKeys (l : List (α × Int)) : Prop :=
  List.Pairwise (fun a b => kf a.1 < kf b.1) l

end KeyedLists

lemma keyCount_append (kf : α → Int) (k : Int) (l₁ l₂ : List (α × Int)) :
    keyCount kf k (l₁ ++ l₂) = keyCount kf k l₁ + keyCount kf k l₂ := by
  induction l₁ with
  | nil => simp [keyCount]
  | cons e l ih => simp [keyCount, ih]; ring

lemma keyOcc_append (kf : α → Int) (k : Int) (l₁ l₂ : List (α × Int)) :
    keyOcc kf k (l₁ ++ l₂) = keyOcc kf k l₁ + keyOcc kf k l₂ := by
  induction l₁ with
  | nil => simp [keyOcc]
  | cons e l ih => simp [keyOcc, ih]; ring

lemma keyCount_eq_zero (kf : α → Int) (k : Int) (l : List (α × Int))
    (h : ∀ e ∈ l, kf e.1 ≠ k) : keyCount kf k l = 0 := by
  induction l with
  | nil => rfl
  | cons e l ih =>
      simp only [keyCount, if_neg (h e (List.mem_cons_self e l))]
      simpa using ih fun e' he' => h e' (List.mem_cons_of_mem e he')

lemma keyOcc_eq_zero (kf : α → Int) (k : Int) (l : List (α × Int))
    (h : ∀ e ∈ l, kf e.1 ≠ k) : keyOcc kf k l = 0 := by
  induction l with
  | nil => rfl
  | cons e l ih =>
      simp only [keyOcc, if_neg (h e (List.mem_cons_self e l))]
      simpa using ih fun e' he' => h e' (List.mem_cons_of_mem e he')

lemma ne_of_keyOcc_zero (kf : α → Int) (k : Int) (l : List (α × Int))
    (h : keyOcc kf k l = 0) : ∀ e ∈ l, kf e.1 ≠ k := by
  induction l with
  | nil => simp
  | cons e l ih =>
      simp only [keyOcc, Nat.add_eq_zero] at h
      rcases h with ⟨h1, h2⟩
      intro e' he'
      rcases List.mem_cons.mp he' with rfl | he'
      · intro hk; simp [hk] at h1
      · exact ih h2 e' he'

/-! Equation lemmas for the inorder projections. -/

@[simp] lemma sem_nil : sem (nil : BTree α) = [] := rfl

@[simp] lemma sem_node (o : α) (l r : BTree α) (c h : Int) :
    sem (node o l r c h) = sem l ++ (o, c) :: sem r := rfl

@[simp] lemma inorder_nil : inorder (nil : BTree α) = [] := rfl

@[simp] lemma inorder_node (o : α) (l r : BTree α) (c h : Int) :
    inorder (node o l r c h) = inorder l ++ o :: inorder r := rfl

@[simp] lemma cntList_nil : cntList (nil : BTree α) = [] := rfl

@[simp] lemma cntList_node (o : α) (l r : BTree α) (c h : Int) :
    cntList (node o l r c h)
      = cntList l ++ List.replicate c.toNat o ++ cntList r := rfl

/-! Rotations and `balance_` preserve the inorder list. -/

lemma sem_fix_height (t : BTree α) : sem (fix_height t) = sem t := by
  cases t <;> rfl

lemma sem_rotate_with_left (t : BTree α) :
    sem (rotate_with_left_ t) = sem t := by
  cases t with
  | nil => rfl
  | node o l r c h =>
      cases l with
      | nil => rfl
      | node lo ll lr lc lh => simp [rotate_with_left_]

lemma sem_rotate_with_right (t : BTree α) :
    sem (rotate_with_right_ t) = sem t := by
  cases t with
  | nil => rfl
  | node o l r c h =>
      cases r with
      | nil => rfl
      | node ro rl rr rc rh => simp [rotate_with_right_]

lemma sem_double_with_left (t : BTree α) :
    sem (double_with_left_ t) = sem t := by
  cases t with
  | nil => rfl
  | node o l r c h =>
      simp [double_with_left_, sem_rotate_with_left, sem_rotate_with_right]

lemma sem_double_with_right (t : BTree α) :
    sem (double_with_right_ t) = sem t := by
  cases t with
  | nil => rfl
  | node o l r c h =>
      simp [double_with_right_, sem_rotate_with_left, sem_rotate_with_right]

/-- Whatever `balance_` does to a node is one of the four rotations (or
nothing), followed by the height refresh. -/
lemma balance_cases (o : α) (l r : BTree α) (c h : Int) :
    balance_ (node o l r c h) = fix_height (node o l r c h) ∨
    balance_ (node o l r c h)
      = fix_height (rotate_with_left_ (node o l r c h)) ∨
    balance_ (node o l r c h)
      = fix_height (double_with_left_ (node o l r c h)) ∨
    balance_ (node o l r c h)
      = fix_height (rotate_with_right_ (node o l r c h)) ∨
    balance_ (node o l r c h)
      = fix_height (double_with_right_ (node o l r c h)) := by
  cases l <;> cases r <;>
    simp only [balance_] <;> split_ifs <;> tauto

lemma sem_balance (t : BTree α) : sem (balance_ t) = sem t := by
  cases t with
  | nil => rfl
  | node o l r c h =>
      rcases balance_cases o l r c h with h' | h' | h' | h' | h' <;>
        rw [h'] <;>
        simp [sem_fix_height, sem_rotate_with_left, sem_rotate_with_right,
          sem_double_with_left, sem_double_with_right]

/-! Characterizations of the Boolean tree predicates through `sem`. -/

lemma allKeysB_iff (kf : α → Int) (p : Int → Bool) (t : BTree α) :
    allKeysB kf p t = true ↔ ∀ e ∈ sem t, p (kf e.1) = true := by
  induction t with
  | nil => simp [allKeysB]
  | node o l r c h ihl ihr =>
      simp only [allKeysB, Bool.and_eq_true, sem_node, List.mem_append,
        List.mem_cons, ihl, ihr]
      constructor
      · rintro ⟨⟨hp, hl⟩, hr⟩ e (he | rfl | he)
        · exact hl e he
        · exact hp
        · exact hr e he
      · intro hall
        exact ⟨⟨hall (o, c) (Or.inr (Or.inl rfl)),
          fun e he => hall e (Or.inl he)⟩,
          fun e he => hall e (Or.inr (Or.inr he))⟩

lemma cntPosB_iff (t : BTree α) :
    cntPosB t = true ↔ ∀ e ∈ sem t, 1 ≤ e.2 := by
  induction t with
  | nil => simp [cntPosB]
  | node o l r c h ihl ihr =>
      simp only [cntPosB, Bool.and_eq_true, decide_eq_true_eq, sem_node,
        List.mem_append, List.mem_cons, ihl, ihr]
      constructor
      · rintro ⟨⟨hc, hl⟩, hr⟩ e (he | rfl | he)
        · exact hl e he
        · exact hc
        · exact hr e he
      · intro hall
        exact ⟨⟨hall (o, c) (Or.inr (Or.inl rfl)),
          fun e he => hall e (Or.inl he)⟩,
          fun e he => hall e (Or.inr (Or.inr he))⟩

lemma occK_eq_keyOcc (kf : α → Int) (k : Int) (t : BTree α) :
    occK kf k t = keyOcc kf k (sem t) := by
  induction t with
  | nil => rfl
  | node o l r c h ihl ihr =>
      simp [occK, keyOcc, keyOcc_append, ihl, ihr]
      ring

lemma bstB_iff_sorted (kf : α → Int) (t : BTree α) :
    bstB kf t = true ↔ sortedKeys kf (sem t) := by
  induction t with
  | nil => simp [bstB, sortedKeys]
  | node o l r c h ihl ihr =>
      simp only [bstB, Bool.and_eq_true, sem_node, sortedKeys,
        List.pairwise_append, List.pairwise_cons, ihl, ihr,
        allKeysB_iff, decide_eq_true_eq, List.mem_cons]
      constructor
      · rintro ⟨⟨⟨hL, hR⟩, hl⟩, hr⟩
        refine ⟨hl, ⟨fun e he => hR e he, hr⟩, ?_⟩
        rintro a ha b (rfl | hb)
        · exact hL a ha
        · exact lt_trans (hL a ha) (hR b hb)
      · rintro ⟨hl, ⟨ho, hr⟩, hcross⟩
        exact ⟨⟨⟨fun e he => hcross e he (o, c) (Or.inl rfl),
          fun e he => ho e he⟩, hl⟩, hr⟩

/-- In a tree with strictly sorted keys there is at most one node per
key. -/
lemma keyOcc_le_one_of_sorted (kf : α → Int) (k : Int) :
    ∀ l : List (α × Int), sortedKeys kf l → keyOcc kf k l ≤ 1 := by
  intro l
  induction l with
  | nil => intro _; simp [keyOcc]
  | cons e l ih =>
      intro hs
      rcases List.pairwise_cons.mp hs with ⟨he, hl⟩
      by_cases hk : kf e.1 = k
      · have : keyOcc kf k l = 0 := by
          apply keyOcc_eq_zero
          intro e' he'
          have := he e' he'
          omega
        simp [keyOcc, if_pos hk, this]
      · simpa [keyOcc, if_neg hk] using ih hl

/-- Duplicate-count list of the tree, computed from `sem`. -/
def repFlat : List (α × Int) → List α
  | [] => []
  | e :: l => List.replicate e.2.toNat e.1 ++ repFlat l

lemma repFlat_append (l₁ l₂ : List (α × Int)) :
    repFlat (l₁ ++ l₂) = repFlat l₁ ++ repFlat l₂ := by
  induction l₁ with
  | nil => rfl
  | cons e l ih => simp [repFlat, ih]

lemma cntList_eq_repFlat (t : BTree α) : cntList t = repFlat (sem t) := by
  induction t with
  | nil => rfl
  | node o l r c h ihl ihr =>
      simp [cntList, repFlat, repFlat_append, ihl, ihr, List.append_assoc]

lemma inorder_eq_sem_map (t : BTree α) :
    inorder t = List.map Prod.fst (sem t) := by
  induction t with
  | nil => rfl
  | node o l r c h ihl ihr => simp [inorder, ihl, ihr]

/-! Transfer through `balance_`. -/

lemma allKeysB_balance (kf : α → Int) (p : Int → Bool) (t : BTree α) :
    allKeysB kf p (balance_ t) = true ↔ allKeysB kf p t = true := by
  rw [allKeysB_iff, allKeysB_iff, sem_balance]

lemma bstB_balance (kf : α → Int) (t : BTree α) :
    bstB kf (balance_ t) = true ↔ bstB kf t = true := by
  rw [bstB_iff_sorted, bstB_iff_sorted, sem_balance]

lemma cntPosB_balance (t : BTree α) :
    cntPosB (balance_ t) = true ↔ cntPosB t = true := by
  rw [cntPosB_iff, cntPosB_iff, sem_balance]

lemma occK_balance (kf : α → Int) (k : Int) (t : BTree α) :
    occK kf k (balance_ t) = occK kf k t := by
  rw [occK_eq_keyOcc, occK_eq_keyOcc, sem_balance]

/-! Comparator facts for key-induced descriptors. -/

lemma keyOps_lt (kf : α → Int) (f : Bool) (a b : α) :
    (keyOps kf f).compare_object a b < 0 ↔ kf a < kf b := by
  simp [keyOps, sub_neg]

lemma keyOps_gt (kf : α → Int) (f : Bool) (a b : α) :
    (keyOps kf f).compare_object a b > 0 ↔ kf b < kf a := by
  simp [keyOps, sub_pos]

lemma opsInt_eq_keyOps (f : Bool) : opsInt f = keyOps id f := rfl

lemma keyFindObj_eq_none (kf : α → Int) (k : Int) (l : List (α × Int))
    (h : ∀ e ∈ l, kf e.1 ≠ k) : keyFindObj kf k l = none := by
  induction l with
  | nil => rfl
  | cons e l ih =>
      simp only [keyFindObj, if_neg (h e (List.mem_cons_self e l))]
      exact ih fun e' he' => h e' (List.mem_cons_of_mem e he')

lemma keyFindObj_append_none (kf : α → Int) (k : Int) (l₁ l₂ : List (α × Int))
    (h : keyFindObj kf k l₁ = none) :
    keyFindObj kf k (l₁ ++ l₂) = keyFindObj kf k l₂ := by
  induction l₁ with
  | nil => rfl
  | cons e l ih =>
      simp only [keyFindObj] at h ⊢
      by_cases hk : kf e.1 = k
      · simp [hk] at h
      · rw [if_neg hk] at h ⊢
        exact ih h

/-- Unpacked form of the search-tree invariant at a node. -/
lemma bstB_node_iff (kf : α → Int) (o : α) (l r : BTree α) (c h : Int) :
    bstB kf (node o l r c h) = true ↔
      (∀ e ∈ sem l, kf e.1 < kf o) ∧ (∀ e ∈ sem r, kf o < kf e.1) ∧
      bstB kf l = true ∧ bstB kf r = true := by
  simp only [bstB, Bool.and_eq_true, allKeysB_iff, decide_eq_true_eq]
  tauto

/-- Under the search-tree invariant, `count_` with a key-induced comparator
computes the total count stored for the key in the inorder list. -/
lemma count_sem (kf : α → Int) (f : Bool) :
    ∀ t : BTree α, bstB kf t = true →
      ∀ q, count_ (keyOps kf f) t q = keyCount kf (kf q) (sem t) := by
  intro t
  induction t with
  | nil => intro _ _; rfl
  | node o l r c h ihl ihr =>
      intro hb q
      obtain ⟨hKL, hKR, hl, hr⟩ := (bstB_node_iff kf o l r c h).mp hb
      have hRz : ∀ hq : kf q < kf o, keyCount kf (kf q) (sem r) = 0 :=
        fun hq => keyCount_eq_zero kf _ _
          (fun e he => by have := hKR e he; omega)
      have hLz : ∀ hq : kf o < kf q, keyCount kf (kf q) (sem l) = 0 :=
        fun hq => keyCount_eq_zero kf _ _
          (fun e he => by have := hKL e he; omega)
      rcases lt_trichotomy (kf q) (kf o) with hq | hq | hq
      · rw [show count_ (keyOps kf f) (node o l r c h) q
              = count_ (keyOps kf f) l q by
            simp only [count_]; rw [if_pos ((keyOps_lt kf f q o).mpr hq)]]
        rw [ihl hl q]
        simp [keyCount_append, keyCount, hRz hq]
        omega
      · rw [show count_ (keyOps kf f) (node o l r c h) q = c by
            simp only [count_]
            rw [if_neg (by rw [keyOps_lt]; omega),
              if_neg (by rw [keyOps_gt]; omega)]]
        have hLz' : keyCount kf (kf q) (sem l) = 0 :=
          keyCount_eq_zero kf _ _ (fun e he => by have := hKL e he; omega)
        have hRz' : keyCount kf (kf q) (sem r) = 0 :=
          keyCount_eq_zero kf _ _ (fun e he => by have := hKR e he; omega)
        simp [keyCount_append, keyCount, hLz', hRz', hq.symm]
      · rw [show count_ (keyOps kf f) (node o l r c h) q
              = count_ (keyOps kf f) r q by
            simp only [count_]
            rw [if_neg (by rw [keyOps_lt]; omega),
              if_pos ((keyOps_gt kf f q o).mpr hq)]]
        rw [ihr hr q]
        simp [keyCount_append, keyCount, hLz hq]
        omega

/-- Objects found in a prefix win. -/
lemma keyFindObj_append_some (kf : α → Int) (k : Int)
    (l₁ l₂ : List (α × Int)) (a : α) (h : keyFindObj kf k l₁ = some a) :
    keyFindObj kf k (l₁ ++ l₂) = some a := by
  induction l₁ with
  | nil => simp [keyFindObj] at h
  | cons e l ih =>
      simp only [keyFindObj, List.cons_append] at h ⊢
      by_cases hk : kf e.1 = k
      · rwa [if_pos hk] at h ⊢
      · rw [if_neg hk] at h ⊢
        exact ih h

/-- Under the search-tree invariant, `search_` with a key-induced comparator
returns the (unique) stored object with the key, if any. -/
lemma search_sem (kf : α → Int) (f : Bool) :
    ∀ t : BTree α, bstB kf t = true →
      ∀ q, search_ (keyOps kf f) t q = keyFindObj kf (kf q) (sem t) := by
  intro t
  induction t with
  | nil => intro _ _; rfl
  | node o l r c h ihl ihr =>
      intro hb q
      obtain ⟨hKL, hKR, hl, hr⟩ := (bstB_node_iff kf o l r c h).mp hb
      rcases lt_trichotomy (kf q) (kf o) with hq | hq | hq
      · rw [show search_ (keyOps kf f) (node o l r c h) q
              = search_ (keyOps kf f) l q by
            simp only [search_]; rw [if_pos ((keyOps_lt kf f q o).mpr hq)]]
        rw [ihl hl q, sem_node]
        rcases hfind : keyFindObj kf (kf q) (sem l) with _ | a
        · rw [keyFindObj_append_none kf _ _ _ hfind]
          rw [keyFindObj_eq_none kf _ _ (fun e he => by
            rcases List.mem_cons.mp he with rfl | he
            · show kf o ≠ kf q; omega
            · have := hKR e he; omega)]
        · rw [keyFindObj_append_some kf _ _ _ _ hfind]
      · rw [show search_ (keyOps kf f) (node o l r c h) q = some o by
            simp only [search_]
            rw [if_neg (by rw [keyOps_lt]; omega),
              if_neg (by rw [keyOps_gt]; omega)]]
        rw [sem_node, keyFindObj_append_none kf _ _ _
          (keyFindObj_eq_none kf _ _ (fun e he => by
            have := hKL e he; omega))]
        simp only [keyFindObj]
        rw [if_pos hq.symm]
      · rw [show search_ (keyOps kf f) (node o l r c h) q
              = search_ (keyOps kf f) r q by
            simp only [search_]
            rw [if_neg (by rw [keyOps_lt]; omega),
              if_pos ((keyOps_gt kf f q o).mpr hq)]]
        rw [ihr hr q, sem_node, keyFindObj_append_none kf _ _ _
          (keyFindObj_eq_none kf _ _ (fun e he => by
            have := hKL e he; omega))]
        simp only [keyFindObj]
        rw [if_neg (by omega)]

/-! Effect of `insert_` on the inorder list. -/

/-- Insertion into the inorder association list: walk to the first entry with
a key not below `kf x`; bump its count on an exact match, otherwise place a
fresh `(x, 1)` entry. -/
def semIns (kf : α → Int) : List (α × Int) → α → List (α × Int)
  | [], x => [(x, 1)]
  | e :: l, x =>
      if kf x < kf e.1 then (x, 1) :: e :: l
      else if kf e.1 < kf x then e :: semIns kf l x
      else (e.1, e.2 + 1) :: l

lemma semIns_append_lt (kf : α → Int) (x : α) (e : α × Int)
    (l₁ l₂ : List (α × Int)) (h : kf x < kf e.1) :
    semIns kf (l₁ ++ e :: l₂) x = semIns kf l₁ x ++ e :: l₂ := by
  induction l₁ with
  | nil => simp [semIns, if_pos h]
  | cons f l ih =>
      simp only [semIns, List.cons_append]
      by_cases h1 : kf x < kf f.1
      · simp [if_pos h1]
      · rw [if_neg h1, if_neg h1]
        by_cases h2 : kf f.1 < kf x
        · rw [if_pos h2, if_pos h2]
          simp only [List.append_eq]
          rw [ih, List.cons_append]
        · rw [if_neg h2, if_neg h2]
          simp [List.append_eq]

lemma semIns_append_ge (kf : α → Int) (x : α) (l₁ l₂ : List (α × Int))
    (h : ∀ e ∈ l₁, kf e.1 < kf x) :
    semIns kf (l₁ ++ l₂) x = l₁ ++ semIns kf l₂ x := by
  induction l₁ with
  | nil => rfl
  | cons f l ih =>
      have hf := h f (List.mem_cons_self f l)
      simp only [semIns, List.cons_append, List.append_eq]
      rw [if_neg (by omega), if_pos hf,
        ih fun e he => h e (List.mem_cons_of_mem f he)]

/-- Under the search-tree invariant, `insert_` edits the inorder list like
`semIns`. -/
lemma sem_insert (kf : α → Int) (f : Bool) :
    ∀ t : BTree α, bstB kf t = true →
      ∀ x, sem ((insert_ (keyOps kf f) t x).1) = semIns kf (sem t) x := by
  intro t
  induction t with
  | nil => intro _ x; rfl
  | node o l r c h ihl ihr =>
      intro hb x
      obtain ⟨hKL, hKR, hl, hr⟩ := (bstB_node_iff kf o l r c h).mp hb
      rcases lt_trichotomy (kf x) (kf o) with hx | hx | hx
      · rw [show (insert_ (keyOps kf f) (node o l r c h) x).1
              = balance_ (node o (insert_ (keyOps kf f) l x).1 r c h) by
            simp only [insert_]; rw [if_pos ((keyOps_lt kf f x o).mpr hx)]]
        rw [sem_balance, sem_node, ihl hl x, sem_node,
          semIns_append_lt kf x (o, c) _ _ hx]
      · rw [show (insert_ (keyOps kf f) (node o l r c h) x).1
              = balance_ (node o l r (c + 1) h) by
            simp only [insert_]
            rw [if_neg (by rw [keyOps_lt]; omega),
              if_neg (by rw [keyOps_gt]; omega)]]
        rw [sem_balance, sem_node, sem_node,
          semIns_append_ge kf x _ _ (fun e he => by
            have := hKL e he; omega)]
        simp only [semIns]
        rw [if_neg (by show ¬ kf x < kf o; omega),
          if_neg (by show ¬ kf o < kf x; omega)]
      · rw [show (insert_ (keyOps kf f) (node o l r c h) x).1
              = balance_ (node o l (insert_ (keyOps kf f) r x).1 c h) by
            simp only [insert_]
            rw [if_neg (by rw [keyOps_lt]; omega),
              if_pos ((keyOps_gt kf f x o).mpr hx)]]
        rw [sem_balance, sem_node, ihr hr x, sem_node,
          show sem l ++ (o, c) :: sem r = (sem l ++ [(o, c)]) ++ sem r by
            simp,
          semIns_append_ge kf x _ _ (fun e he => by
            rcases List.mem_append.mp he with he | he
            · have := hKL e he; omega
            · rcases List.mem_singleton.mp he with rfl
              show kf o < kf x; omega)]
        simp

/-- Keys present after `semIns` were present before or are the inserted
key. -/
lemma semIns_key_mem (kf : α → Int) (x : α) :
    ∀ l, ∀ e ∈ semIns kf l x,
      kf e.1 = kf x ∨ ∃ e' ∈ l, kf e'.1 = kf e.1 := by
  intro l
  induction l with
  | nil =>
      intro e he
      rcases List.mem_singleton.mp he with rfl
      exact Or.inl rfl
  | cons f l ih =>
      intro e he
      simp only [semIns] at he
      by_cases h1 : kf x < kf f.1
      · rw [if_pos h1] at he
        rcases List.mem_cons.mp he with rfl | he
        · exact Or.inl rfl
        · exact Or.inr ⟨e, he, rfl⟩
      · rw [if_neg h1] at he
        by_cases h2 : kf f.1 < kf x
        · rw [if_pos h2] at he
          rcases List.mem_cons.mp he with rfl | he
          · exact Or.inr ⟨e, List.mem_cons_self _ _, rfl⟩
          · rcases ih e he with h | ⟨e', he', hk⟩
            · exact Or.inl h
            · exact Or.inr ⟨e', List.mem_cons_of_mem f he', hk⟩
        · rw [if_neg h2] at he
          rcases List.mem_cons.mp he with rfl | he
          · exact Or.inr ⟨f, List.mem_cons_self _ _, rfl⟩
          · exact Or.inr ⟨e, List.mem_cons_of_mem f he, rfl⟩

lemma sortedKeys_semIns (kf : α → Int) (x : α) :
    ∀ l, sortedKeys kf l → sortedKeys kf (semIns kf l x) := by
  intro l
  induction l with
  | nil => intro _; simp [semIns, sortedKeys]
  | cons e l ih =>
      intro hs
      rcases List.pairwise_cons.mp hs with ⟨he, hl⟩
      simp only [semIns]
      by_cases h1 : kf x < kf e.1
      · rw [if_pos h1]
        refine List.pairwise_cons.mpr ⟨?_, hs⟩
        intro b hb
        rcases List.mem_cons.mp hb with rfl | hb
        · exact h1
        · exact lt_trans h1 (he b hb)
      · rw [if_neg h1]
        by_cases h2 : kf e.1 < kf x
        · rw [if_pos h2]
          refine List.pairwise_cons.mpr ⟨?_, ih hl⟩
          intro b hb
          rcases semIns_key_mem kf x l b hb with hk | ⟨e', he', hk⟩
          · omega
          · have := he e' he'; omega
        · rw [if_neg h2]
          exact List.pairwise_cons.mpr ⟨fun b hb => he b hb, hl⟩

lemma cntPos_semIns (kf : α → Int) (x : α) :
    ∀ l, (∀ e ∈ l, 1 ≤ e.2) → ∀ e ∈ semIns kf l x, 1 ≤ e.2 := by
  intro l
  induction l with
  | nil =>
      intro _ e he
      rcases List.mem_singleton.mp he with rfl; norm_num
  | cons f l ih =>
      intro hp e he
      have hf := hp f (List.mem_cons_self f l)
      simp only [semIns] at he
      by_cases h1 : kf x < kf f.1
      · rw [if_pos h1] at he
        rcases List.mem_cons.mp he with rfl | he
        · norm_num
        · exact hp e he
      · rw [if_neg h1] at he
        by_cases h2 : kf f.1 < kf x
        · rw [if_pos h2] at he
          rcases List.mem_cons.mp he with rfl | he
          · exact hf
          · exact ih (fun e' he' => hp e' (List.mem_cons_of_mem f he')) e he
        · rw [if_neg h2] at he
          rcases List.mem_cons.mp he with rfl | he
          · show 1 ≤ f.2 + 1; omega
          · exact hp e (List.mem_cons_of_mem f he)

lemma keyCount_semIns (kf : α → Int) (x : α) (k : Int) :
    ∀ l, keyCount kf k (semIns kf l x)
      = keyCount kf k l + (if kf x = k then 1 else 0) := by
  intro l
  induction l with
  | nil => simp [semIns, keyCount]
  | cons e l ih =>
      simp only [semIns]
      by_cases h1 : kf x < kf e.1
      · rw [if_pos h1]
        simp only [keyCount]
        ring
      · rw [if_neg h1]
        by_cases h2 : kf e.1 < kf x
        · rw [if_pos h2]
          simp only [keyCount, ih]
          ring
        · rw [if_neg h2]
          have hex : kf e.1 = kf x := by omega
          simp only [keyCount]
          by_cases hk : kf e.1 = k
          · rw [if_pos hk, if_pos hk, if_pos (hex ▸ hk)]
            ring
          · rw [if_neg hk, if_neg hk, if_neg (fun hc => hk (hex ▸ hc))]
            ring

/-- Preservation of the search-tree invariant by `insert_`. -/
lemma bstB_insert (kf : α → Int) (f : Bool) (t : BTree α) (x : α)
    (hb : bstB kf t = true) :
    bstB kf ((insert_ (keyOps kf f) t x).1) = true := by
  rw [bstB_iff_sorted, sem_insert kf f t hb x]
  exact sortedKeys_semIns kf x _ ((bstB_iff_sorted kf t).mp hb)

/-- Preservation of positive counts by `insert_`. -/
lemma cntPosB_insert (kf : α → Int) (f : Bool) (t : BTree α) (x : α)
    (hb : bstB kf t = true) (hc : cntPosB t = true) :
    cntPosB ((insert_ (keyOps kf f) t x).1) = true := by
  rw [cntPosB_iff, sem_insert kf f t hb x]
  exact cntPos_semIns kf x _ ((cntPosB_iff t).mp hc)

/-- Iterated `bstree_insert` of the same object. -/
def insertN (ops : Ops α) (t : BTree α) (x : α) : Nat → BTree α
  | 0 => t
  | k + 1 => (insert_ ops (insertN ops t x k) x).1

/-- Invariants and the accumulated count after `k` inserts of the same
object. -/
lemma insertN_facts (kf : α → Int) (f : Bool) (t : BTree α) (x : α)
    (hb : bstB kf t = true) (hcp : cntPosB t = true) :
    ∀ k : Nat, bstB kf (insertN (keyOps kf f) t x k) = true ∧
      cntPosB (insertN (keyOps kf f) t x k) = true ∧
      keyCount kf (kf x) (sem (insertN (keyOps kf f) t x k))
        = keyCount kf (kf x) (sem t) + (k : Int) := by
  intro k
  induction k with
  | zero => exact ⟨hb, hcp, by simp [insertN]⟩
  | succ m ih =>
      obtain ⟨hb', hcp', hkc⟩ := ih
      refine ⟨bstB_insert kf f _ x hb', cntPosB_insert kf f _ x hb' hcp', ?_⟩
      show keyCount kf (kf x)
          (sem ((insert_ (keyOps kf f) (insertN (keyOps kf f) t x m) x).1))
        = _
      rw [sem_insert kf f _ hb' x, keyCount_semIns, hkc, if_pos rfl]
      push_cast
      ring

/-- The list-accumulating visitor: logs every visited object, never stops
(models a C visitor that appends to `it_data` and returns 0). -/
def collectVisitor : α → List α → List α × Bool := fun o s => (s ++ [o], false)

lemma visit_rep_collect (o : α) :
    ∀ (n : Nat) (s : List α),
      visit_rep_ collectVisitor o n s = (s ++ List.replicate n o, false) := by
  intro n
  induction n with
  | zero => intro s; simp [visit_rep_]
  | succ m ih =>
      intro s
      simp [visit_rep_, collectVisitor, ih, List.replicate_succ]

lemma traverse_cnt_collect :
    ∀ (t : BTree α) (s : List α),
      traverse_inorder_cnt_ t s collectVisitor = (s ++ cntList t, false) := by
  intro t
  induction t with
  | nil => intro s; simp [traverse_inorder_cnt_]
  | node o l r c h ihl ihr =>
      intro s
      simp [traverse_inorder_cnt_, ihl, ihr, visit_rep_collect,
        List.append_assoc]

lemma traverse_collect :
    ∀ (t : BTree α) (s : List α),
      traverse_inorder_ t s collectVisitor = (s ++ inorder t, false) := by
  intro t
  induction t with
  | nil => intro s; simp [traverse_inorder_]
  | node o l r c h ihl ihr =>
      intro s
      simp [traverse_inorder_, ihl, ihr, collectVisitor, List.append_assoc]

/-- A list holding exactly one entry with key `k` splits around it. -/
lemma exists_decomp_of_keyOcc_one (kf : α → Int) (k : Int) :
    ∀ l : List (α × Int), keyOcc kf k l = 1 →
      ∃ l₁ e l₂, l = l₁ ++ e :: l₂ ∧ kf e.1 = k ∧
        keyOcc kf k l₁ = 0 ∧ keyOcc kf k l₂ = 0 := by
  intro l
  induction l with
  | nil => intro h; simp [keyOcc] at h
  | cons e l ih =>
      intro h
      by_cases hk : kf e.1 = k
      · refine ⟨[], e, l, by simp, hk, rfl, ?_⟩
        simp only [keyOcc, if_pos hk] at h
        omega
      · simp only [keyOcc, if_neg hk] at h
        obtain ⟨l₁, e', l₂, rfl, hk', h₁, h₂⟩ := ih (by omega)
        exact ⟨e :: l₁, e', l₂, rfl, hk',
          by simp [keyOcc, if_neg hk, h₁], h₂⟩

lemma mem_repFlat (y : α) :
    ∀ l : List (α × Int), y ∈ repFlat l → ∃ e ∈ l, y = e.1 := by
  intro l
  induction l with
  | nil => intro h; simp [repFlat] at h
  | cons e l ih =>
      intro h
      rcases List.mem_append.mp h with h | h
      · exact ⟨e, List.mem_cons_self e l, (List.eq_of_mem_replicate h)⟩
      · obtain ⟨e', he', rfl⟩ := ih h
        exact ⟨e', List.mem_cons_of_mem e he', rfl⟩

/-- Claim C4: inserting the key `x` (absent beforehand) `k ≥ 1` times into a
search-tree container leaves exactly one node with key `x`, whose count is
`k`; `count_` reports `k`, and a counted in-order traversal (with a visitor
that logs every visit and never stops) is invoked on `x` exactly `k`
consecutive times. -/
theorem claim_C4_duplicate_aggregation (f : Bool) (t : BTree Int) (x : Int)
    (k : Nat) (hb : bstB id t = true) (hcp : cntPosB t = true)
    (h0 : count_ (opsInt f) t x = 0) (hk : 1 ≤ k) :
    occK id x (insertN (opsInt f) t x k) = 1 ∧
    count_ (opsInt f) (insertN (opsInt f) t x k) x = (k : Int) ∧
    ∃ pre post,
      traverse_inorder_cnt_ (insertN (opsInt f) t x k) ([] : List Int)
          collectVisitor
        = (pre ++ List.replicate k x ++ post, false) ∧
      x ∉ pre ∧ x ∉ post := by
  rw [opsInt_eq_keyOps] at h0 ⊢
  have h0' : keyCount id (id x) (sem t) = 0 := by
    rw [← count_sem id f t hb x, h0]
  obtain ⟨hbk, hcpk, hkck⟩ := insertN_facts id f t x hb hcp k
  rw [h0'] at hkck
  simp only [id] at hkck h0' ⊢
  have hkck' : keyCount id x (sem (insertN (keyOps id f) t x k)) = (k : Int) := by
    simpa using hkck
  have hsorted : sortedKeys id (sem (insertN (keyOps id f) t x k)) :=
    (bstB_iff_sorted id _).mp hbk
  have hocc1 : keyOcc id x (sem (insertN (keyOps id f) t x k)) = 1 := by
    have hle := keyOcc_le_one_of_sorted id x _ hsorted
    have hne : keyOcc id x (sem (insertN (keyOps id f) t x k)) ≠ 0 := by
      intro hzero
      rw [keyCount_eq_zero id x _ (ne_of_keyOcc_zero id x _ hzero)] at hkck'
      omega
    omega
  refine ⟨?_, ?_, ?_⟩
  · rw [occK_eq_keyOcc]
    exact hocc1
  · rw [count_sem id f _ hbk x]
    simpa using hkck'
  · obtain ⟨l₁, e, l₂, hdec, hek, hocc₁, hocc₂⟩ :=
      exists_decomp_of_keyOcc_one id x _ hocc1
    have hcnt : e.2 = (k : Int) := by
      rw [hdec, keyCount_append] at hkck'
      rw [keyCount_eq_zero id x l₁ (ne_of_keyOcc_zero id x l₁ hocc₁)]
        at hkck'
      simp only [keyCount, if_pos hek] at hkck'
      rw [keyCount_eq_zero id x l₂ (ne_of_keyOcc_zero id x l₂ hocc₂)]
        at hkck'
      omega
    refine ⟨repFlat l₁, repFlat l₂, ?_, ?_, ?_⟩
    · rw [traverse_cnt_collect, cntList_eq_repFlat, hdec, repFlat_append]
      simp only [List.nil_append, repFlat]
      have : List.replicate e.2.toNat e.1 = List.replicate k x := by
        have h1 : e.2.toNat = k := by omega
        have h2 : e.1 = x := hek
        rw [h1, h2]
      rw [this, List.append_assoc]
    · intro hmem
      obtain ⟨e', he', rfl⟩ := mem_repFlat _ l₁ hmem
      exact ne_of_keyOcc_zero id _ l₁ hocc₁ e' he' rfl
    · intro hmem
      obtain ⟨e', he', rfl⟩ := mem_repFlat _ l₂ hmem
      exact ne_of_keyOcc_zero id _ l₂ hocc₂ e' he' rfl

/-- Witness for claim C4 at a concrete input: tree `{2}`, key 5 inserted 3
times. -/
theorem claim_C4_duplicate_aggregation_witness :
    (bstB id (node 2 nil nil 1 0) = true ∧
     cntPosB (node 2 nil nil 1 0) = true ∧
     count_ (opsInt false) (node 2 nil nil 1 0) 5 = 0 ∧ 1 ≤ 3) ∧
    (occK id 5 (insertN (opsInt false) (node 2 nil nil 1 0) 5 3) = 1 ∧
     count_ (opsInt false) (insertN (opsInt false) (node 2 nil nil 1 0) 5 3) 5
       = (3 : Int) ∧
     ∃ pre post,
       traverse_inorder_cnt_ (insertN (opsInt false) (node 2 nil nil 1 0) 5 3)
           ([] : List Int) collectVisitor
         = (pre ++ List.replicate 3 5 ++ post, false) ∧
       (5 : Int) ∉ pre ∧ (5 : Int) ∉ post) :=
  ⟨⟨by decide, by decide, by decide, by decide⟩,
    claim_C4_duplicate_aggregation false (node 2 nil nil 1 0) 5 3
      (by decide) (by decide) (by decide) (by decide)⟩

/-! Effect of `replace_` on the inorder list. -/

/-- Replacement in the inorder association list: walk to the first entry with
a key not below `kf y`; on an exact match swap the stored object for `y`
keeping the count, otherwise place a fresh `(y, 1)` entry. -/
def semRep (kf : α → Int) : List (α × Int) → α → List (α × Int)
  | [], y => [(y, 1)]
  | e :: l, y =>
      if kf y < kf e.1 then (y, 1) :: e :: l
      else if kf e.1 < kf y then e :: semRep kf l y
      else (y, e.2) :: l

lemma semRep_append_lt (kf : α → Int) (y : α) (e : α × Int)
    (l₁ l₂ : List (α × Int)) (h : kf y < kf e.1) :
    semRep kf (l₁ ++ e :: l₂) y = semRep kf l₁ y ++ e :: l₂ := by
  induction l₁ with
  | nil => simp [semRep, if_pos h]
  | cons f l ih =>
      simp only [semRep, List.cons_append, List.append_eq]
      by_cases h1 : kf y < kf f.1
      · simp [if_pos h1]
      · rw [if_neg h1, if_neg h1]
        by_cases h2 : kf f.1 < kf y
        · rw [if_pos h2, if_pos h2, ih, List.cons_append]
        · rw [if_neg h2, if_neg h2]
          simp

lemma semRep_append_ge (kf : α → Int) (y : α) (l₁ l₂ : List (α × Int))
    (h : ∀ e ∈ l₁, kf e.1 < kf y) :
    semRep kf (l₁ ++ l₂) y = l₁ ++ semRep kf l₂ y := by
  induction l₁ with
  | nil => rfl
  | cons f l ih =>
      have hf := h f (List.mem_cons_self f l)
      simp only [semRep, List.cons_append, List.append_eq]
      rw [if_neg (by omega), if_pos hf,
        ih fun e he => h e (List.mem_cons_of_mem f he)]

/-- Under the search-tree invariant, `replace_` edits the inorder list like
`semRep`. -/
lemma sem_replace (kf : α → Int) (f : Bool) :
    ∀ t : BTree α, bstB kf t = true →
      ∀ y, sem ((replace_ (keyOps kf f) t y).1) = semRep kf (sem t) y := by
  intro t
  induction t with
  | nil => intro _ y; rfl
  | node o l r c h ihl ihr =>
      intro hb y
      obtain ⟨hKL, hKR, hl, hr⟩ := (bstB_node_iff kf o l r c h).mp hb
      rcases lt_trichotomy (kf y) (kf o) with hy | hy | hy
      · rw [show (replace_ (keyOps kf f) (node o l r c h) y).1
              = balance_ (node o (replace_ (keyOps kf f) l y).1 r c h) by
            simp only [replace_]; rw [if_pos ((keyOps_lt kf f y o).mpr hy)]]
        rw [sem_balance, sem_node, ihl hl y, sem_node,
          semRep_append_lt kf y (o, c) _ _ hy]
      · rw [show (replace_ (keyOps kf f) (node o l r c h) y).1
              = balance_ (node y l r c h) by
            simp only [replace_]
            rw [if_neg (by rw [keyOps_lt]; omega),
              if_neg (by rw [keyOps_gt]; omega)]]
        rw [sem_balance, sem_node, sem_node,
          semRep_append_ge kf y _ _ (fun e he => by
            have := hKL e he; omega)]
        simp only [semRep]
        rw [if_neg (by show ¬ kf y < kf o; omega),
          if_neg (by show ¬ kf o < kf y; omega)]
      · rw [show (replace_ (keyOps kf f) (node o l r c h) y).1
              = balance_ (node o l (replace_ (keyOps kf f) r y).1 c h) by
            simp only [replace_]
            rw [if_neg (by rw [keyOps_lt]; omega),
              if_pos ((keyOps_gt kf f y o).mpr hy)]]
        rw [sem_balance, sem_node, ihr hr y, sem_node,
          show sem l ++ (o, c) :: sem r = (sem l ++ [(o, c)]) ++ sem r by
            simp,
          semRep_append_ge kf y _ _ (fun e he => by
            rcases List.mem_append.mp he with he | he
            · have := hKL e he; omega
            · rcases List.mem_singleton.mp he with rfl
              show kf o < kf y; omega)]
        simp

/-- Keys present after `semRep` were present before or are the new key. -/
lemma semRep_key_mem (kf : α → Int) (y : α) :
    ∀ l, ∀ e ∈ semRep kf l y,
      kf e.1 = kf y ∨ ∃ e' ∈ l, kf e'.1 = kf e.1 := by
  intro l
  induction l with
  | nil =>
      intro e he
      rcases List.mem_singleton.mp he with rfl
      exact Or.inl rfl
  | cons f l ih =>
      intro e he
      simp only [semRep] at he
      by_cases h1 : kf y < kf f.1
      · rw [if_pos h1] at he
        rcases List.mem_cons.mp he with rfl | he
        · exact Or.inl rfl
        · exact Or.inr ⟨e, he, rfl⟩
      · rw [if_neg h1] at he
        by_cases h2 : kf f.1 < kf y
        · rw [if_pos h2] at he
          rcases List.mem_cons.mp he with rfl | he
          · exact Or.inr ⟨e, List.mem_cons_self _ _, rfl⟩
          · rcases ih e he with h | ⟨e', he', hk⟩
            · exact Or.inl h
            · exact Or.inr ⟨e', List.mem_cons_of_mem f he', hk⟩
        · rw [if_neg h2] at he
          rcases List.mem_cons.mp he with rfl | he
          · exact Or.inl rfl
          · exact Or.inr ⟨e, List.mem_cons_of_mem f he, rfl⟩

lemma sortedKeys_semRep (kf : α → Int) (y : α) :
    ∀ l, sortedKeys kf l → sortedKeys kf (semRep kf l y) := by
  intro l
  induction l with
  | nil => intro _; simp [semRep, sortedKeys]
  | cons e l ih =>
      intro hs
      rcases List.pairwise_cons.mp hs with ⟨he, hl⟩
      simp only [semRep]
      by_cases h1 : kf y < kf e.1
      · rw [if_pos h1]
        refine List.pairwise_cons.mpr ⟨?_, hs⟩
        intro b hb
        rcases List.mem_cons.mp hb with rfl | hb
        · exact h1
        · exact lt_trans h1 (he b hb)
      · rw [if_neg h1]
        by_cases h2 : kf e.1 < kf y
        · rw [if_pos h2]
          refine List.pairwise_cons.mpr ⟨?_, ih hl⟩
          intro b hb
          rcases semRep_key_mem kf y l b hb with hk | ⟨e', he', hk⟩
          · omega
          · have := he e' he'; omega
        · rw [if_neg h2]
          refine List.pairwise_cons.mpr ⟨?_, hl⟩
          intro b hb
          have := he b hb
          show kf y < kf b.1
          omega

lemma cntPos_semRep (kf : α → Int) (y : α) :
    ∀ l, (∀ e ∈ l, 1 ≤ e.2) → ∀ e ∈ semRep kf l y, 1 ≤ e.2 := by
  intro l
  induction l with
  | nil =>
      intro _ e he
      rcases List.mem_singleton.mp he with rfl; norm_num
  | cons f l ih =>
      intro hp e he
      have hf := hp f (List.mem_cons_self f l)
      simp only [semRep] at he
      by_cases h1 : kf y < kf f.1
      · rw [if_pos h1] at he
        rcases List.mem_cons.mp he with rfl | he
        · norm_num
        · exact hp e he
      · rw [if_neg h1] at he
        by_cases h2 : kf f.1 < kf y
        · rw [if_pos h2] at he
          rcases List.mem_cons.mp he with rfl | he
          · exact hf
          · exact ih (fun e' he' => hp e' (List.mem_cons_of_mem f he')) e he
        · rw [if_neg h2] at he
          rcases List.mem_cons.mp he with rfl | he
          · exact hf
          · exact hp e (List.mem_cons_of_mem f he)

/-- Preservation of the search-tree invariant by `replace_`. -/
lemma bstB_replace (kf : α → Int) (f : Bool) (t : BTree α) (y : α)
    (hb : bstB kf t = true) :
    bstB kf ((replace_ (keyOps kf f) t y).1) = true := by
  rw [bstB_iff_sorted, sem_replace kf f t hb y]
  exact sortedKeys_semRep kf y _ ((bstB_iff_sorted kf t).mp hb)

/-- A replace always leaves `y` as the stored object for its key. -/
lemma keyFindObj_semRep (kf : α → Int) (y : α) :
    ∀ l, keyFindObj kf (kf y) (semRep kf l y) = some y := by
  intro l
  induction l with
  | nil => simp [semRep, keyFindObj]
  | cons e l ih =>
      simp only [semRep]
      by_cases h1 : kf y < kf e.1
      · rw [if_pos h1]; simp [keyFindObj]
      · rw [if_neg h1]
        by_cases h2 : kf e.1 < kf y
        · rw [if_pos h2]
          simp only [keyFindObj]
          rw [if_neg (by omega)]
          exact ih
        · rw [if_neg h2]; simp [keyFindObj]

/-- Replace of an absent key adds a single fresh entry: counts. -/
lemma keyCount_semRep_absent (kf : α → Int) (y : α) (k : Int) :
    ∀ l, (∀ e ∈ l, kf e.1 ≠ kf y) →
      keyCount kf k (semRep kf l y)
        = keyCount kf k l + (if kf y = k then 1 else 0) := by
  intro l
  induction l with
  | nil => intro _; simp [semRep, keyCount]
  | cons e l ih =>
      intro hne
      have he := hne e (List.mem_cons_self e l)
      simp only [semRep]
      by_cases h1 : kf y < kf e.1
      · rw [if_pos h1]
        simp only [keyCount]
        ring
      · rw [if_neg h1, if_pos (by omega)]
        simp only [keyCount,
          ih fun e' he' => hne e' (List.mem_cons_of_mem e he')]
        ring

/-- Replace of an absent key adds a single fresh entry: occurrences. -/
lemma keyOcc_semRep_absent (kf : α → Int) (y : α) (k : Int) :
    ∀ l, (∀ e ∈ l, kf e.1 ≠ kf y) →
      keyOcc kf k (semRep kf l y)
        = keyOcc kf k l + (if kf y = k then 1 else 0) := by
  intro l
  induction l with
  | nil => intro _; simp [semRep, keyOcc]
  | cons e l ih =>
      intro hne
      have he := hne e (List.mem_cons_self e l)
      simp only [semRep]
      by_cases h1 : kf y < kf e.1
      · rw [if_pos h1]
        simp only [keyOcc]
        ring
      · rw [if_neg h1, if_pos (by omega)]
        simp only [keyOcc,
          ih fun e' he' => hne e' (List.mem_cons_of_mem e he')]
        ring

/-- Replace of a present key keeps the stored count for that key. -/
lemma keyCount_semRep_present (kf : α → Int) (y : α) :
    ∀ l, sortedKeys kf l → keyOcc kf (kf y) l = 1 →
      keyCount kf (kf y) (semRep kf l y) = keyCount kf (kf y) l := by
  intro l
  induction l with
  | nil => intro _ h; simp [keyOcc] at h
  | cons e l ih =>
      intro hs hocc
      rcases List.pairwise_cons.mp hs with ⟨he, hl⟩
      simp only [semRep]
      by_cases h1 : kf y < kf e.1
      · exfalso
        have : keyOcc kf (kf y) (e :: l) = 0 := by
          apply keyOcc_eq_zero
          intro e' he'
          rcases List.mem_cons.mp he' with rfl | he'
          · omega
          · have := he e' he'; omega
        omega
      · rw [if_neg h1]
        by_cases h2 : kf e.1 < kf y
        · rw [if_pos h2]
          simp only [keyOcc, if_neg (by omega : ¬ kf e.1 = kf y)] at hocc
          simp only [keyCount, if_neg (by omega : ¬ kf e.1 = kf y)]
          rw [ih hl (by omega)]
        · rw [if_neg h2]
          simp only [keyCount, if_pos rfl,
            if_pos (by omega : kf e.1 = kf y)]
          simp

/-- The freed-objects list of `replace_`: exactly the previously stored
object for the key, when the container owns payloads and the key was
present. -/
lemma replace_destroyed (ops : Ops α) :
    ∀ (t : BTree α) (y : α),
      (replace_ ops t y).2
        = if ops.free_object then (search_ ops t y).toList else [] := by
  intro t
  induction t with
  | nil => intro y; simp [replace_, search_]
  | node o l r c h ihl ihr =>
      intro y
      simp only [replace_, search_]
      by_cases h1 : ops.compare_object y o < 0
      · rw [if_pos h1, if_pos h1]
        exact ihl y
      · rw [if_neg h1, if_neg h1]
        by_cases h2 : ops.compare_object y o > 0
        · rw [if_pos h2, if_pos h2]
          exact ihr y
        · rw [if_neg h2, if_neg h2]
          cases ops.free_object <;> simp

lemma bstB_insertN (kf : α → Int) (f : Bool) (t : BTree α) (x : α)
    (hb : bstB kf t = true) :
    ∀ m : Nat, bstB kf (insertN (keyOps kf f) t x m) = true := by
  intro m
  induction m with
  | zero => exact hb
  | succ n ih => exact bstB_insert kf f _ x ih

lemma keyCount_nonneg (kf : α → Int) (k : Int) :
    ∀ l : List (α × Int), (∀ e ∈ l, 1 ≤ e.2) → 0 ≤ keyCount kf k l := by
  intro l
  induction l with
  | nil => intro _; simp [keyCount]
  | cons e l ih =>
      intro hp
      have he := hp e (List.mem_cons_self e l)
      have := ih fun e' he' => hp e' (List.mem_cons_of_mem e he')
      simp only [keyCount]
      by_cases hk : kf e.1 = k
      · rw [if_pos hk]; omega
      · rw [if_neg hk]; omega

lemma no_key_of_keyCount_zero (kf : α → Int) (k : Int)
    (l : List (α × Int)) (hpos : ∀ e ∈ l, 1 ≤ e.2)
    (h : keyCount kf k l = 0) : ∀ e ∈ l, kf e.1 ≠ k := by
  induction l with
  | nil => simp
  | cons e l ih =>
      have he := hpos e (List.mem_cons_self e l)
      have hpl : ∀ e' ∈ l, 1 ≤ e'.2 :=
        fun e' he' => hpos e' (List.mem_cons_of_mem e he')
      have hnn := keyCount_nonneg kf k l hpl
      simp only [keyCount] at h
      intro e' he'
      rcases List.mem_cons.mp he' with rfl | he'
      · intro hk
        rw [if_pos hk] at h
        omega
      · refine ih hpl ?_ e' he'
        by_cases hk : kf e.1 = k
        · rw [if_pos hk] at h; omega
        · rw [if_neg hk] at h; omega

/-- Inserting `x` into a sorted list stores `x` itself when the key was
absent, and keeps the previously stored object otherwise. -/
lemma keyFindObj_semIns (kf : α → Int) (x : α) :
    ∀ l, sortedKeys kf l →
      keyFindObj kf (kf x) (semIns kf l x)
        = some ((keyFindObj kf (kf x) l).getD x) := by
  intro l
  induction l with
  | nil => intro _; simp [semIns, keyFindObj]
  | cons e l ih =>
      intro hs
      rcases List.pairwise_cons.mp hs with ⟨he, hl⟩
      simp only [semIns]
      by_cases h1 : kf x < kf e.1
      · rw [if_pos h1]
        simp only [keyFindObj, if_pos rfl, if_neg (by omega : ¬ kf e.1 = kf x)]
        rw [keyFindObj_eq_none kf _ l (fun e' he' => by
          have := he e' he'; omega)]
        rfl
      · rw [if_neg h1]
        by_cases h2 : kf e.1 < kf x
        · rw [if_pos h2]
          simp only [keyFindObj, if_neg (by omega : ¬ kf e.1 = kf x)]
          exact ih hl
        · rw [if_neg h2]
          simp only [keyFindObj, if_pos (by omega : kf e.1 = kf x),
            if_pos rfl]
          rfl

/-- After at least one insert of `x` on an initially `x`-free search tree,
the stored object for `x`'s key is `x` itself. -/
lemma insertN_findObj (kf : α → Int) (f : Bool) (t : BTree α) (x : α)
    (hb : bstB kf t = true) (habs : ∀ e ∈ sem t, kf e.1 ≠ kf x) :
    ∀ m : Nat, 1 ≤ m →
      keyFindObj kf (kf x) (sem (insertN (keyOps kf f) t x m)) = some x := by
  intro m
  induction m with
  | zero => intro h; omega
  | succ n ih =>
      intro _
      show keyFindObj kf (kf x)
          (sem ((insert_ (keyOps kf f) (insertN (keyOps kf f) t x n) x).1))
        = some x
      rw [sem_insert kf f _ (bstB_insertN kf f t x hb n) x,
        keyFindObj_semIns kf x _
          ((bstB_iff_sorted kf _).mp (bstB_insertN kf f t x hb n))]
      cases n with
      | zero =>
          rw [show insertN (keyOps kf f) t x 0 = t from rfl,
            keyFindObj_eq_none kf _ _ habs]
          rfl
      | succ p =>
          rw [ih (by omega)]
          rfl

/-- After `k ≥ 1` inserts of an initially absent key there is exactly one
entry for it. -/
lemma insertN_occ_one (kf : α → Int) (f : Bool) (t : BTree α) (x : α)
    (hb : bstB kf t = true) (hcp : cntPosB t = true)
    (h0 : keyCount kf (kf x) (sem t) = 0) (k : Nat) (hk : 1 ≤ k) :
    keyOcc kf (kf x) (sem (insertN (keyOps kf f) t x k)) = 1 := by
  obtain ⟨hbk, _, hkc⟩ := insertN_facts kf f t x hb hcp k
  rw [h0] at hkc
  have hsorted := (bstB_iff_sorted kf _).mp hbk
  have hle := keyOcc_le_one_of_sorted kf (kf x) _ hsorted
  have hne : keyOcc kf (kf x) (sem (insertN (keyOps kf f) t x k)) ≠ 0 := by
    intro hzero
    rw [keyCount_eq_zero kf _ _ (ne_of_keyOcc_zero kf _ _ hzero)] at hkc
    omega
  omega

/-- Claim C5: with `x` absent, `k ≥ 1` inserts of payload `(x, p)` followed
by `replace (x, q)` leave the count at `k` while the stored payload becomes
`(x, q)`; the prior payload `(x, p)` is the one destroyed exactly when the
container owns payloads; and replacing a key absent from a tree creates a
single fresh node with count 1 and height 0 (shown literally on the empty
subtree, and by count/occurrence 1 on any search tree `u` lacking the
key). -/
theorem claim_C5_replace_semantics (f : Bool) (t : BTree (Int × Int))
    (x p q : Int) (k : Nat) (u : BTree (Int × Int)) (y : Int × Int)
    (hb : bstB Prod.fst t = true) (hcp : cntPosB t = true)
    (h0 : count_ (keyOps Prod.fst f) t (x, p) = 0) (hk : 1 ≤ k)
    (hbu : bstB Prod.fst u = true) (hcpu : cntPosB u = true)
    (h0u : count_ (keyOps Prod.fst f) u y = 0) :
    count_ (keyOps Prod.fst f)
        (replace_ (keyOps Prod.fst f)
          (insertN (keyOps Prod.fst f) t (x, p) k) (x, q)).1 (x, q)
      = (k : Int) ∧
    search_ (keyOps Prod.fst f)
        (replace_ (keyOps Prod.fst f)
          (insertN (keyOps Prod.fst f) t (x, p) k) (x, q)).1 (x, q)
      = some (x, q) ∧
    (replace_ (keyOps Prod.fst f)
        (insertN (keyOps Prod.fst f) t (x, p) k) (x, q)).2
      = (if f then [(x, p)] else []) ∧
    replace_ (keyOps Prod.fst f) (nil : BTree (Int × Int)) y
      = (node y nil nil 1 0, []) ∧
    occK Prod.fst y.1 (replace_ (keyOps Prod.fst f) u y).1 = 1 ∧
    count_ (keyOps Prod.fst f) (replace_ (keyOps Prod.fst f) u y).1 y
      = 1 := by
  have h0' : keyCount Prod.fst x (sem t) = 0 := by
    have := count_sem Prod.fst f t hb (x, p)
    rw [h0] at this
    exact this.symm
  have habs : ∀ e ∈ sem t, e.1.1 ≠ x :=
    no_key_of_keyCount_zero Prod.fst x (sem t)
      ((cntPosB_iff t).mp hcp) h0'
  have hbT := bstB_insertN Prod.fst f t (x, p) hb k
  have hsT := (bstB_iff_sorted Prod.fst _).mp hbT
  have hoccT : keyOcc Prod.fst x (sem (insertN (keyOps Prod.fst f) t (x, p) k)) = 1 :=
    insertN_occ_one Prod.fst f t (x, p) hb hcp h0' k hk
  obtain ⟨_, _, hkcT⟩ := insertN_facts Prod.fst f t (x, p) hb hcp k
  rw [h0'] at hkcT
  have hbR := bstB_replace Prod.fst f _ (x, q) hbT
  have h0u' : keyCount Prod.fst y.1 (sem u) = 0 := by
    have := count_sem Prod.fst f u hbu y
    rw [h0u] at this
    exact this.symm
  have habsu : ∀ e ∈ sem u, e.1.1 ≠ y.1 :=
    no_key_of_keyCount_zero Prod.fst y.1 (sem u)
      ((cntPosB_iff u).mp hcpu) h0u'
  refine ⟨?_, ?_, ?_, rfl, ?_, ?_⟩
  · rw [count_sem Prod.fst f _ hbR (x, q),
      sem_replace Prod.fst f _ hbT (x, q)]
    show keyCount Prod.fst x (semRep Prod.fst _ (x, q)) = (k : Int)
    rw [show (x : Int) = Prod.fst ((x, q) : Int × Int) from rfl,
      keyCount_semRep_present Prod.fst (x, q) _ hsT hoccT]
    simpa using hkcT
  · rw [search_sem Prod.fst f _ hbR (x, q),
      sem_replace Prod.fst f _ hbT (x, q)]
    exact keyFindObj_semRep Prod.fst (x, q) _
  · rw [replace_destroyed (keyOps Prod.fst f) _ (x, q)]
    have hfind : search_ (keyOps Prod.fst f)
        (insertN (keyOps Prod.fst f) t (x, p) k) (x, q) = some (x, p) := by
      rw [search_sem Prod.fst f _ hbT (x, q)]
      exact insertN_findObj Prod.fst f t (x, p) hb habs k hk
    rw [hfind]
    rfl
  · rw [occK_eq_keyOcc, sem_replace Prod.fst f u hbu y]
    have := keyOcc_semRep_absent Prod.fst y y.1 (sem u) habsu
    rw [this, keyOcc_eq_zero Prod.fst y.1 (sem u) habsu, if_pos rfl]
  · rw [count_sem Prod.fst f _ (bstB_replace Prod.fst f u y hbu) y,
      sem_replace Prod.fst f u hbu y,
      keyCount_semRep_absent Prod.fst y y.1 (sem u) habsu,
      keyCount_eq_zero Prod.fst y.1 (sem u) habsu, if_pos rfl]
    omega

/-- Witness for claim C5 at a concrete input: tree `{(2, 7)}`, key 5 with
payload 9 inserted twice, then replaced by payload 11; absent-replace tree
`{(1, 1)}` with new key-payload `(3, 4)`. -/
theorem claim_C5_replace_semantics_witness :
    (bstB Prod.fst (node ((2 : Int), (7 : Int)) nil nil 1 0) = true ∧
     cntPosB (node ((2 : Int), (7 : Int)) nil nil 1 0) = true ∧
     count_ (keyOps Prod.fst true) (node ((2 : Int), (7 : Int)) nil nil 1 0)
       (5, 9) = 0 ∧ 1 ≤ 2 ∧
     bstB Prod.fst (node ((1 : Int), (1 : Int)) nil nil 1 0) = true ∧
     cntPosB (node ((1 : Int), (1 : Int)) nil nil 1 0) = true ∧
     count_ (keyOps Prod.fst true) (node ((1 : Int), (1 : Int)) nil nil 1 0)
       (3, 4) = 0) ∧
    (count_ (keyOps Prod.fst true)
        (replace_ (keyOps Prod.fst true)
          (insertN (keyOps Prod.fst true)
            (node ((2 : Int), (7 : Int)) nil nil 1 0) (5, 9) 2) (5, 11)).1
        (5, 11) = (2 : Int) ∧
     search_ (keyOps Prod.fst true)
        (replace_ (keyOps Prod.fst true)
          (insertN (keyOps Prod.fst true)
            (node ((2 : Int), (7 : Int)) nil nil 1 0) (5, 9) 2) (5, 11)).1
        (5, 11) = some (5, 11) ∧
     (replace_ (keyOps Prod.fst true)
        (insertN (keyOps Prod.fst true)
          (node ((2 : Int), (7 : Int)) nil nil 1 0) (5, 9) 2) (5, 11)).2
       = (if true then [((5 : Int), (9 : Int))] else []) ∧
     replace_ (keyOps Prod.fst true) (nil : BTree (Int × Int)) (3, 4)
       = (node ((3 : Int), (4 : Int)) nil nil 1 0, []) ∧
     occK Prod.fst (3, 4).1
       (replace_ (keyOps Prod.fst true)
         (node ((1 : Int), (1 : Int)) nil nil 1 0) (3, 4)).1 = 1 ∧
     count_ (keyOps Prod.fst true)
       (replace_ (keyOps Prod.fst true)
         (node ((1 : Int), (1 : Int)) nil nil 1 0) (3, 4)).1 (3, 4) = 1) :=
  ⟨⟨by decide, by decide, by decide, by decide, by decide, by decide,
    by decide⟩,
    claim_C5_replace_semantics true (node (2, 7) nil nil 1 0) 5 9 11 2
      (node (1, 1) nil nil 1 0) (3, 4) (by decide) (by decide) (by decide)
      (by decide) (by decide) (by decide) (by decide)⟩

/-! Removal of an absent key. -/

lemma hcOkB_node_iff (o : α) (l r : BTree α) (c h : Int) :
    hcOkB (node o l r c h) = true ↔
      h = int_max_ (height_ l) (height_ r) + 1 ∧
      hcOkB l = true ∧ hcOkB r = true := by
  simp only [hcOkB, Bool.and_eq_true, decide_eq_true_eq]
  tauto

lemma avlOkB_node_iff (o : α) (l r : BTree α) (c h : Int) :
    avlOkB (node o l r c h) = true ↔
      height_ l - height_ r ≤ 1 ∧ height_ r - height_ l ≤ 1 ∧
      avlOkB l = true ∧ avlOkB r = true := by
  simp only [avlOkB, Bool.and_eq_true, decide_eq_true_eq]
  tauto

/-- On a node that is in balance and has a correct height cache, `balance_`
is the identity (no rotation fires; the height refresh rewrites the same
value). -/
lemma balance_id (o : α) (l r : BTree α) (c h : Int)
    (hh : h = int_max_ (height_ l) (height_ r) + 1)
    (ha1 : height_ l - height_ r ≤ 1) (ha2 : height_ r - height_ l ≤ 1) :
    balance_ (node o l r c h) = node o l r c h := by
  simp only [balance_]
  rw [if_neg (by omega), if_neg (by omega)]
  simp only [fix_height]
  rw [← hh]

/-- Claim C6: removing a key the search does not find is a no-op on any
container state satisfying the height-cache and balance invariants: the
tree is returned unchanged and nothing is freed (no error channel exists in
the C API; `remove_` simply returns the same root). -/
theorem claim_C6_remove_absent_noop (ops : Ops α) (t : BTree α) (key : α)
    (hhc : hcOkB t = true) (havl : avlOkB t = true)
    (hs : search_ ops t key = none) :
    remove_ ops t key = (t, []) := by
  induction t with
  | nil => rfl
  | node o l r c h ihl ihr =>
      obtain ⟨hh, hhl, hhr⟩ := (hcOkB_node_iff o l r c h).mp hhc
      obtain ⟨ha1, ha2, hal, har⟩ := (avlOkB_node_iff o l r c h).mp havl
      simp only [search_] at hs
      by_cases h1 : ops.compare_object key o < 0
      · rw [if_pos h1] at hs
        unfold remove_
        rw [if_pos h1, ihl hhl hal hs]
        dsimp only
        rw [balance_id o l r c h hh ha1 ha2]
      · rw [if_neg h1] at hs
        by_cases h2 : ops.compare_object key o > 0
        · rw [if_pos h2] at hs
          unfold remove_
          rw [if_neg h1, if_pos h2, ihr hhr har hs]
          dsimp only
          rw [balance_id o l r c h hh ha1 ha2]
        · rw [if_neg h2] at hs
          simp at hs

/-- Witness for claim C6 at a concrete input: the AVL tree `{1, 2, 3}` and
the absent key 5. -/
theorem claim_C6_remove_absent_noop_witness :
    (hcOkB (node (2 : Int) (node 1 nil nil 1 0) (node 3 nil nil 1 0) 1 1)
        = true ∧
     avlOkB (node (2 : Int) (node 1 nil nil 1 0) (node 3 nil nil 1 0) 1 1)
        = true ∧
     search_ (opsInt false)
       (node (2 : Int) (node 1 nil nil 1 0) (node 3 nil nil 1 0) 1 1) 5
       = none) ∧
    remove_ (opsInt false)
      (node (2 : Int) (node 1 nil nil 1 0) (node 3 nil nil 1 0) 1 1) 5
      = (node (2 : Int) (node 1 nil nil 1 0) (node 3 nil nil 1 0) 1 1, []) :=
  ⟨⟨by decide, by decide, by decide⟩,
    claim_C6_remove_absent_noop (opsInt false)
      (node 2 (node 1 nil nil 1 0) (node 3 nil nil 1 0) 1 1) 5
      (by decide) (by decide) (by decide)⟩

/-! Early-terminating traversal: both variants are the left-to-right run of
the visitor over the corresponding inorder list, stopping at the first stop
signal (so no later element is ever visited). -/

/-- Run the visitor over a list, short-circuiting on the first stop. -/
def runVisit (op : α → σ → σ × Bool) : σ → List α → σ × Bool
  | s, [] => (s, false)
  | s, x :: xs =>
      let res := op x s
      if res.2 then (res.1, true) else runVisit op res.1 xs

lemma runVisit_append (op : α → σ → σ × Bool) :
    ∀ (l₁ l₂ : List α) (s : σ),
      runVisit op s (l₁ ++ l₂)
        = if (runVisit op s l₁).2 then runVisit op s l₁
          else runVisit op (runVisit op s l₁).1 l₂ := by
  intro l₁
  induction l₁ with
  | nil => intro l₂ s; simp [runVisit]
  | cons x xs ih =>
      intro l₂ s
      rcases hO : op x s with ⟨s1, b1⟩
      cases b1 <;> simp [runVisit, hO, ih]

lemma traverse_eq_runVisit (op : α → σ → σ × Bool) :
    ∀ (t : BTree α) (s : σ),
      traverse_inorder_ t s op = runVisit op s (inorder t) := by
  intro t
  induction t with
  | nil => intro s; rfl
  | node o l r c h ihl ihr =>
      intro s
      rcases hL : traverse_inorder_ l s op with ⟨s1, b1⟩
      have hL' : runVisit op s (inorder l) = (s1, b1) := by rw [← ihl, hL]
      rw [inorder_node, runVisit_append, hL']
      cases b1
      · rcases hO : op o s1 with ⟨s2, b2⟩
        cases b2 <;> simp [traverse_inorder_, runVisit, hL, hO, ihr]
      · simp [traverse_inorder_, hL]

lemma visit_rep_eq_runVisit (op : α → σ → σ × Bool) (o : α) :
    ∀ (n : Nat) (s : σ),
      visit_rep_ op o n s = runVisit op s (List.replicate n o) := by
  intro n
  induction n with
  | zero => intro s; rfl
  | succ m ih =>
      intro s
      rcases hO : op o s with ⟨s1, b1⟩
      cases b1 <;>
        simp [visit_rep_, runVisit, List.replicate_succ, hO, ih]

lemma traverse_cnt_eq_runVisit (op : α → σ → σ × Bool) :
    ∀ (t : BTree α) (s : σ),
      traverse_inorder_cnt_ t s op = runVisit op s (cntList t) := by
  intro t
  induction t with
  | nil => intro s; rfl
  | node o l r c h ihl ihr =>
      intro s
      rcases hL : traverse_inorder_cnt_ l s op with ⟨s1, b1⟩
      have hL' : runVisit op s (cntList l) = (s1, b1) := by rw [← ihl, hL]
      rw [cntList_node, List.append_assoc, runVisit_append, hL']
      cases b1
      · rcases hO : visit_rep_ op o c.toNat s1 with ⟨s2, b2⟩
        have hO' : runVisit op s1 (List.replicate c.toNat o) = (s2, b2) := by
          rw [← visit_rep_eq_runVisit, hO]
        rw [runVisit_append, hO']
        cases b2 <;>
          simp [traverse_inorder_cnt_, hL, hO, ihr]
      · simp [traverse_inorder_cnt_, hL]

/-- A visitor (over the counter it keeps in `it_data`) that signals stop on
its third invocation. -/
def stopAt3 : α → Nat → Nat × Bool := fun _ n => (n + 1, n + 1 == 3)

lemma runVisit_stopAt3 :
    ∀ (l : List α) (n : Nat), n < 3 → 3 ≤ n + l.length →
      runVisit stopAt3 n l = (3, true) := by
  intro l
  induction l with
  | nil => intro n _ h; simp at h; omega
  | cons x xs ih =>
      intro n hlt hge
      by_cases h3 : n + 1 = 3
      · simp [runVisit, stopAt3, h3]
      · have hbeq : (n + 1 == 3) = false := beq_eq_false_iff_ne.mpr h3
        have : runVisit stopAt3 n (x :: xs)
            = runVisit stopAt3 (n + 1) xs := by
          simp [runVisit, stopAt3, hbeq]
        rw [this]
        apply ih <;> simp at hge ⊢ <;> omega

/-- Claim C8: both traversal variants run the visitor left-to-right over
their inorder visit list and short-circuit on the first stop signal; in
particular a visitor that signals stop on its third invocation makes either
traversal report stopped after exactly 3 invocations (the returned counter),
on any tree shape with at least three (counted) elements. -/
theorem claim_C8_traversal_early_stop (t : BTree Int)
    (h1 : 3 ≤ (inorder t).length) (h2 : 3 ≤ (cntList t).length) :
    (∀ (σ : Type) (op : Int → σ → σ × Bool) (s : σ),
        traverse_inorder_ t s op = runVisit op s (inorder t)) ∧
    (∀ (σ : Type) (op : Int → σ → σ × Bool) (s : σ),
        traverse_inorder_cnt_ t s op = runVisit op s (cntList t)) ∧
    traverse_inorder_ t 0 stopAt3 = (3, true) ∧
    traverse_inorder_cnt_ t 0 stopAt3 = (3, true) := by
  refine ⟨fun σ op s => traverse_eq_runVisit op t s,
    fun σ op s => traverse_cnt_eq_runVisit op t s, ?_, ?_⟩
  · rw [traverse_eq_runVisit]
    exact runVisit_stopAt3 _ 0 (by omega) (by omega)
  · rw [traverse_cnt_eq_runVisit]
    exact runVisit_stopAt3 _ 0 (by omega) (by omega)

/-- Witness for claim C8 at a concrete input: the AVL tree `{1, 2, 3, 4}`
(whose shape puts 3 and 4 under the root's right child). -/
theorem claim_C8_traversal_early_stop_witness :
    (3 ≤ (inorder (node (2 : Int) (node 1 nil nil 1 0)
        (node 3 nil (node 4 nil nil 1 0) 1 1) 1 2)).length ∧
     3 ≤ (cntList (node (2 : Int) (node 1 nil nil 1 0)
        (node 3 nil (node 4 nil nil 1 0) 1 1) 1 2)).length) ∧
    (traverse_inorder_ (node (2 : Int) (node 1 nil nil 1 0)
        (node 3 nil (node 4 nil nil 1 0) 1 1) 1 2) 0 stopAt3 = (3, true) ∧
     traverse_inorder_cnt_ (node (2 : Int) (node 1 nil nil 1 0)
        (node 3 nil (node 4 nil nil 1 0) 1 1) 1 2) 0 stopAt3 = (3, true)) :=
  ⟨⟨by decide, by decide⟩,
    ⟨(claim_C8_traversal_early_stop
        (node 2 (node 1 nil nil 1 0) (node 3 nil (node 4 nil nil 1 0) 1 1)
          1 2) (by decide) (by decide)).2.2.1,
      (claim_C8_traversal_early_stop
        (node 2 (node 1 nil nil 1 0) (node 3 nil (node 4 nil nil 1 0) 1 1)
          1 2) (by decide) (by decide)).2.2.2⟩⟩

/-! Height-cache correctness: every tree built by the public mutating
operations has every node's cached height equal to
`1 + max(height(left), height(right))`. -/

lemma hc_fix_plain (o : α) (l r : BTree α) (c h : Int)
    (hl : hcOkB l = true) (hr : hcOkB r = true) :
    hcOkB (fix_height (node o l r c h)) = true := by
  simp only [fix_height]
  exact (hcOkB_node_iff o l r c _).mpr ⟨rfl, hl, hr⟩

lemma hc_rotate_with_right_pres (t : BTree α) (h : hcOkB t = true) :
    hcOkB (rotate_with_right_ t) = true := by
  cases t with
  | nil => exact h
  | node o l r c hh =>
      cases r with
      | nil => exact h
      | node ro rl rr rc rh =>
          obtain ⟨h1, h2, h3⟩ :=
            (hcOkB_node_iff o l (node ro rl rr rc rh) c hh).mp h
          obtain ⟨h4, h5, h6⟩ := (hcOkB_node_iff ro rl rr rc rh).mp h3
          simp only [rotate_with_right_]
          exact (hcOkB_node_iff _ _ _ _ _).mpr
            ⟨rfl, (hcOkB_node_iff _ _ _ _ _).mpr ⟨rfl, h2, h5⟩, h6⟩

lemma hc_rotate_with_left_pres (t : BTree α) (h : hcOkB t = true) :
    hcOkB (rotate_with_left_ t) = true := by
  cases t with
  | nil => exact h
  | node o l r c hh =>
      cases l with
      | nil => exact h
      | node lo ll lr lc lh =>
          obtain ⟨h1, h2, h3⟩ :=
            (hcOkB_node_iff o (node lo ll lr lc lh) r c hh).mp h
          obtain ⟨h4, h5, h6⟩ := (hcOkB_node_iff lo ll lr lc lh).mp h2
          simp only [rotate_with_left_]
          exact (hcOkB_node_iff _ _ _ _ _).mpr
            ⟨rfl, h5, (hcOkB_node_iff _ _ _ _ _).mpr ⟨rfl, h6, h3⟩⟩

lemma hc_fix_rotL (o : α) (l r : BTree α) (c h : Int)
    (hl : hcOkB l = true) (hr : hcOkB r = true) :
    hcOkB (fix_height (rotate_with_left_ (node o l r c h))) = true := by
  cases l with
  | nil => exact hc_fix_plain o nil r c h hl hr
  | node lo ll lr lc lh =>
      obtain ⟨h1, h2, h3⟩ := (hcOkB_node_iff lo ll lr lc lh).mp hl
      simp only [rotate_with_left_, fix_height]
      exact (hcOkB_node_iff _ _ _ _ _).mpr
        ⟨rfl, h2, (hcOkB_node_iff _ _ _ _ _).mpr ⟨rfl, h3, hr⟩⟩

lemma hc_fix_rotR (o : α) (l r : BTree α) (c h : Int)
    (hl : hcOkB l = true) (hr : hcOkB r = true) :
    hcOkB (fix_height (rotate_with_right_ (node o l r c h))) = true := by
  cases r with
  | nil => exact hc_fix_plain o l nil c h hl hr
  | node ro rl rr rc rh =>
      obtain ⟨h1, h2, h3⟩ := (hcOkB_node_iff ro rl rr rc rh).mp hr
      simp only [rotate_with_right_, fix_height]
      exact (hcOkB_node_iff _ _ _ _ _).mpr
        ⟨rfl, (hcOkB_node_iff _ _ _ _ _).mpr ⟨rfl, hl, h2⟩, h3⟩

/-- Whatever `balance_` does to a node with height-correct children, the
result is height-correct (rotations recompute every height they touch, and
the final refresh fixes the root). -/
lemma hc_balance (o : α) (l r : BTree α) (c h : Int)
    (hl : hcOkB l = true) (hr : hcOkB r = true) :
    hcOkB (balance_ (node o l r c h)) = true := by
  rcases balance_cases o l r c h with hb | hb | hb | hb | hb <;> rw [hb]
  · exact hc_fix_plain o l r c h hl hr
  · exact hc_fix_rotL o l r c h hl hr
  · cases l with
    | nil =>
        simp only [double_with_left_]
        exact hc_fix_rotL o (rotate_with_right_ nil) r c h hl hr
    | node lo ll lr lc lh =>
        simp only [double_with_left_]
        exact hc_fix_rotL o _ r c h
          (hc_rotate_with_right_pres _ hl) hr
  · exact hc_fix_rotR o l r c h hl hr
  · cases r with
    | nil =>
        simp only [double_with_right_]
        exact hc_fix_rotR o l (rotate_with_left_ nil) c h hl hr
    | node ro rl rr rc rh =>
        simp only [double_with_right_]
        exact hc_fix_rotR o l _ c h hl
          (hc_rotate_with_left_pres _ hr)

lemma hc_insert (ops : Ops α) (x : α) :
    ∀ t : BTree α, hcOkB t = true →
      hcOkB ((insert_ ops t x).1) = true := by
  intro t
  induction t with
  | nil => intro _; rfl
  | node o l r c h ihl ihr =>
      intro ht
      obtain ⟨h1, hl, hr⟩ := (hcOkB_node_iff o l r c h).mp ht
      by_cases c1 : ops.compare_object x o < 0
      · rw [show (insert_ ops (node o l r c h) x).1
              = balance_ (node o (insert_ ops l x).1 r c h) by
            simp only [insert_]; rw [if_pos c1]]
        exact hc_balance o _ r c h (ihl hl) hr
      · by_cases c2 : ops.compare_object x o > 0
        · rw [show (insert_ ops (node o l r c h) x).1
                = balance_ (node o l (insert_ ops r x).1 c h) by
              simp only [insert_]; rw [if_neg c1, if_pos c2]]
          exact hc_balance o l _ c h hl (ihr hr)
        · rw [show (insert_ ops (node o l r c h) x).1
                = balance_ (node o l r (c + 1) h) by
              simp only [insert_]; rw [if_neg c1, if_neg c2]]
          exact hc_balance o l r (c + 1) h hl hr

lemma hc_replace (ops : Ops α) (y : α) :
    ∀ t : BTree α, hcOkB t = true →
      hcOkB ((replace_ ops t y).1) = true := by
  intro t
  induction t with
  | nil => intro _; rfl
  | node o l r c h ihl ihr =>
      intro ht
      obtain ⟨h1, hl, hr⟩ := (hcOkB_node_iff o l r c h).mp ht
      by_cases c1 : ops.compare_object y o < 0
      · rw [show (replace_ ops (node o l r c h) y).1
              = balance_ (node o (replace_ ops l y).1 r c h) by
            simp only [replace_]; rw [if_pos c1]]
        exact hc_balance o _ r c h (ihl hl) hr
      · by_cases c2 : ops.compare_object y o > 0
        · rw [show (replace_ ops (node o l r c h) y).1
                = balance_ (node o l (replace_ ops r y).1 c h) by
              simp only [replace_]; rw [if_neg c1, if_pos c2]]
          exact hc_balance o l _ c h hl (ihr hr)
        · rw [show (replace_ ops (node o l r c h) y).1
                = balance_ (node y l r c h) by
              simp only [replace_]; rw [if_neg c1, if_neg c2]]
          exact hc_balance y l r c h hl hr

/-- Unfolded equation for `remove_` at a node (definitional). -/
lemma remove_node_eq (ops : Ops α) (o : α) (l r : BTree α) (c h : Int)
    (key : α) :
    remove_ ops (node o l r c h) key =
      if ops.compare_object key o < 0 then
        (balance_ (node o (remove_ ops l key).1 r c h),
         (remove_ ops l key).2)
      else if ops.compare_object key o > 0 then
        (balance_ (node o l (remove_ ops r key).1 c h),
         (remove_ ops r key).2)
      else
        match l, r with
        | nil, _ => (r, if ops.free_object then [o] else [])
        | node lo ll lr lc lh, nil =>
            (node lo ll lr lc lh, if ops.free_object then [o] else [])
        | node lo ll lr lc lh, node ro rl rr rc rh =>
            match get_min_ (node ro rl rr rc rh) with
            | node mo _ _ _ _ =>
                (balance_ (node mo (node lo ll lr lc lh)
                    (remove_ { ops with free_object := false }
                      (node ro rl rr rc rh) mo).1 c h),
                 (if ops.free_object then [o] else []) ++
                   (remove_ { ops with free_object := false }
                     (node ro rl rr rc rh) mo).2)
            | nil => (node o l r c h, []) := by
  conv_lhs => rw [remove_.eq_def]

lemma hc_remove :
    ∀ (t : BTree α) (ops : Ops α) (key : α), hcOkB t = true →
      hcOkB ((remove_ ops t key).1) = true := by
  intro t
  induction t with
  | nil => intro _ _ _; rfl
  | node o l r c h ihl ihr =>
      intro ops key ht
      obtain ⟨h1, hl, hr⟩ := (hcOkB_node_iff o l r c h).mp ht
      rw [remove_node_eq]
      by_cases c1 : ops.compare_object key o < 0
      · rw [if_pos c1]
        exact hc_balance o _ r c h (ihl ops key hl) hr
      · rw [if_neg c1]
        by_cases c2 : ops.compare_object key o > 0
        · rw [if_pos c2]
          exact hc_balance o l _ c h hl (ihr ops key hr)
        · rw [if_neg c2]
          cases l with
          | nil => exact hr
          | node lo ll lr lc lh =>
              cases r with
              | nil => exact hl
              | node ro rl rr rc rh =>
                  dsimp only
                  rcases hmin : get_min_ (node ro rl rr rc rh) with
                    _ | ⟨mo, ml, mr, mc, mh⟩
                  · dsimp only
                    exact ht
                  · dsimp only
                    exact hc_balance mo _ _ c h hl
                      (ihr { ops with free_object := false } mo hr)

/-- Claim C9: after any sequence of public mutating operations on a
container created empty, every node's cached `height` equals
`1 + max(height(left), height(right))` with an absent child at height `-1`
(the `hcOkB` predicate); and the public height operation answers `-1` on an
empty container. -/
theorem claim_C9_height_cache (cmp : α → α → Int) (f : Bool)
    (l : List (Op α)) :
    hcOkB (bstree_run cmp f l).root = true ∧
    bstree_height (bstree_new cmp f) = -1 := by
  constructor
  · have main : ∀ (t : Bstree α), hcOkB t.root = true →
        hcOkB (List.foldl bstree_apply t l).root = true := by
      induction l with
      | nil => intro t h; exact h
      | cons op ops ih =>
          intro t h
          show hcOkB (List.foldl bstree_apply (bstree_apply t op) ops).root
            = true
          apply ih
          cases op with
          | ins x =>
              show hcOkB ((insert_ t.ops t.root x).1) = true
              exact hc_insert t.ops x t.root h
          | rep x =>
              show hcOkB ((replace_ t.ops t.root x).1) = true
              exact hc_replace t.ops x t.root h
          | rem k =>
              show hcOkB ((remove_ t.ops t.root k).1) = true
              exact hc_remove t.root t.ops k h
    exact main (bstree_new cmp f) rfl
  · rfl

/-! Removal of a present key: the removed key's nodes are gone. -/

lemma keyOcc_pos_of_mem (kf : α → Int) :
    ∀ (l : List (α × Int)) (e : α × Int), e ∈ l →
      1 ≤ keyOcc kf (kf e.1) l := by
  intro l
  induction l with
  | nil => intro e he; simp at he
  | cons f fs ih =>
      intro e he
      rcases List.mem_cons.mp he with rfl | he
      · rw [show keyOcc kf (kf e.1) (e :: fs)
            = (if kf e.1 = kf e.1 then 1 else 0) + keyOcc kf (kf e.1) fs
            from rfl, if_pos rfl]
        omega
      · have := ih e he
        simp only [keyOcc]
        by_cases hk : kf f.1 = kf e.1
        · rw [if_pos hk]; omega
        · rw [if_neg hk]; omega

lemma exists_key_of_keyOcc_ne_zero (kf : α → Int) (k : Int)
    (l : List (α × Int)) (h : keyOcc kf k l ≠ 0) :
    ∃ e ∈ l, kf e.1 = k := by
  by_contra hc
  push_neg at hc
  exact h (keyOcc_eq_zero kf k l hc)

lemma keyOcc_sem_node (kf : α → Int) (k : Int) (o : α) (l r : BTree α)
    (c h : Int) :
    keyOcc kf k (sem (node o l r c h))
      = keyOcc kf k (sem l) + (if kf o = k then 1 else 0)
        + keyOcc kf k (sem r) := by
  rw [sem_node, keyOcc_append]
  simp only [keyOcc]
  ring

/-- The leftmost node of a non-empty tree: its left child is absent, and
its `(object, count)` pair heads the inorder list. -/
lemma get_min_spec :
    ∀ (t : BTree α) (o : α) (l r : BTree α) (c h : Int),
      t = node o l r c h →
      ∃ mo mr mc mh rest, get_min_ t = node mo nil mr mc mh ∧
        sem t = (mo, mc) :: rest := by
  intro t
  induction t with
  | nil => intro o l r c h heq; cases heq
  | node o' l' r' c' h' ihl ihr =>
      intro o l r c h heq
      cases l' with
      | nil =>
          exact ⟨o', r', c', h', sem r', rfl, by simp⟩
      | node lo ll lr lc lh =>
          obtain ⟨mo, mr, mc, mh, rest, h1, h2⟩ :=
            ihl lo ll lr lc lh rfl
          refine ⟨mo, mr, mc, mh, rest ++ (o', c') :: sem r', ?_, ?_⟩
          · show get_min_ (node o' (node lo ll lr lc lh) r' c' h') = _
            rw [show get_min_ (node o' (node lo ll lr lc lh) r' c' h')
                = get_min_ (node lo ll lr lc lh) from rfl, h1]
          · rw [sem_node, h2]
            simp

lemma allKeysB_node_iff (kf : α → Int) (p : Int → Bool) (o : α)
    (l r : BTree α) (c h : Int) :
    allKeysB kf p (node o l r c h) = true ↔
      p (kf o) = true ∧ allKeysB kf p l = true ∧ allKeysB kf p r = true := by
  simp only [allKeysB, Bool.and_eq_true]
  tauto

/-- Joint induction for `remove_` under the search-tree invariant: the
result is again a search tree, per-key node multiplicities do not grow, the
removed key has no node left, and any key bound satisfied by the whole tree
still holds. -/
lemma remove_master (kf : α → Int) :
    ∀ (t : BTree α) (f : Bool) (x : α), bstB kf t = true →
      bstB kf ((remove_ (keyOps kf f) t x).1) = true ∧
      (∀ k, keyOcc kf k (sem ((remove_ (keyOps kf f) t x).1))
        ≤ keyOcc kf k (sem t)) ∧
      keyOcc kf (kf x) (sem ((remove_ (keyOps kf f) t x).1)) = 0 ∧
      (∀ p : Int → Bool, allKeysB kf p t = true →
        allKeysB kf p ((remove_ (keyOps kf f) t x).1) = true) := by
  intro t
  induction t with
  | nil =>
      intro f x _
      exact ⟨rfl, fun k => le_refl _, rfl, fun p hp => hp⟩
  | node o l r c h ihl ihr =>
      intro f x hb
      obtain ⟨hKL, hKR, hl, hr⟩ := (bstB_node_iff kf o l r c h).mp hb
      rw [remove_node_eq]
      by_cases c1 : (keyOps kf f).compare_object x o < 0
      · have hx : kf x < kf o := (keyOps_lt kf f x o).mp c1
        rw [if_pos c1]
        dsimp only
        obtain ⟨ibst, imono, izero, ipres⟩ := ihl f x hl
        have hKL' : ∀ e ∈ sem ((remove_ (keyOps kf f) l x).1),
            kf e.1 < kf o := by
          intro e he
          have h' := ipres (fun k => decide (k < kf o))
            ((allKeysB_iff kf _ l).mpr
              fun e' he' => decide_eq_true (hKL e' he'))
          exact of_decide_eq_true ((allKeysB_iff kf _ _).mp h' e he)
        have hrz : keyOcc kf (kf x) (sem r) = 0 :=
          keyOcc_eq_zero kf _ _ fun e he => by have := hKR e he; omega
        refine ⟨?_, ?_, ?_, ?_⟩
        · rw [bstB_balance]
          exact (bstB_node_iff kf o _ r c h).mpr ⟨hKL', hKR, ibst, hr⟩
        · intro k
          rw [sem_balance, keyOcc_sem_node, keyOcc_sem_node]
          have := imono k
          omega
        · rw [sem_balance, keyOcc_sem_node, izero, hrz,
            if_neg (by omega : ¬ kf o = kf x)]
        · intro p hp
          obtain ⟨hpo, hpl, hpr⟩ := (allKeysB_node_iff kf p o l r c h).mp hp
          rw [allKeysB_balance]
          exact (allKeysB_node_iff kf p o _ r c h).mpr
            ⟨hpo, ipres p hpl, hpr⟩
      · rw [if_neg c1]
        by_cases c2 : (keyOps kf f).compare_object x o > 0
        · have hx : kf o < kf x := (keyOps_gt kf f x o).mp c2
          rw [if_pos c2]
          dsimp only
          obtain ⟨ibst, imono, izero, ipres⟩ := ihr f x hr
          have hKR' : ∀ e ∈ sem ((remove_ (keyOps kf f) r x).1),
              kf o < kf e.1 := by
            intro e he
            have h' := ipres (fun k => decide (kf o < k))
              ((allKeysB_iff kf _ r).mpr
                fun e' he' => decide_eq_true (hKR e' he'))
            exact of_decide_eq_true ((allKeysB_iff kf _ _).mp h' e he)
          have hlz : keyOcc kf (kf x) (sem l) = 0 :=
            keyOcc_eq_zero kf _ _ fun e he => by have := hKL e he; omega
          refine ⟨?_, ?_, ?_, ?_⟩
          · rw [bstB_balance]
            exact (bstB_node_iff kf o l _ c h).mpr ⟨hKL, hKR', hl, ibst⟩
          · intro k
            rw [sem_balance, keyOcc_sem_node, keyOcc_sem_node]
            have := imono k
            omega
          · rw [sem_balance, keyOcc_sem_node, izero, hlz,
              if_neg (by omega : ¬ kf o = kf x)]
          · intro p hp
            obtain ⟨hpo, hpl, hpr⟩ :=
              (allKeysB_node_iff kf p o l r c h).mp hp
            rw [allKeysB_balance]
            exact (allKeysB_node_iff kf p o l _ c h).mpr
              ⟨hpo, hpl, ipres p hpr⟩
        · have hx : kf x = kf o := by
            have h1 : ¬ kf x < kf o := fun hc => c1 ((keyOps_lt kf f x o).mpr hc)
            have h2 : ¬ kf o < kf x := fun hc => c2 ((keyOps_gt kf f x o).mpr hc)
            omega
          rw [if_neg c2]
          have hlz : keyOcc kf (kf x) (sem l) = 0 :=
            keyOcc_eq_zero kf _ _ fun e he => by have := hKL e he; omega
          have hrz : keyOcc kf (kf x) (sem r) = 0 :=
            keyOcc_eq_zero kf _ _ fun e he => by have := hKR e he; omega
          cases l with
          | nil =>
              dsimp only
              refine ⟨hr, ?_, hrz, ?_⟩
              · intro k
                rw [keyOcc_sem_node kf k o nil r c h]
                omega
              · intro p hp
                exact ((allKeysB_node_iff kf p o nil r c h).mp hp).2.2
          | node lo ll lr lc lh =>
              cases r with
              | nil =>
                  dsimp only
                  refine ⟨hl, ?_, hlz, ?_⟩
                  · intro k
                    rw [keyOcc_sem_node kf k o (node lo ll lr lc lh) nil c h]
                    omega
                  · intro p hp
                    exact ((allKeysB_node_iff kf p o _ nil c h).mp hp).2.1
              | node ro rl rr rc rh =>
                  dsimp only
                  obtain ⟨mo, mr, mc, mh, rest, hmin, hsemR⟩ :=
                    get_min_spec (node ro rl rr rc rh) ro rl rr rc rh rfl
                  rw [hmin]
                  dsimp only
                  rw [show { keyOps kf f with free_object := false }
                      = keyOps kf false from rfl]
                  obtain ⟨ibst, imono, izero, ipres⟩ := ihr false mo hr
                  have hmoR : ((mo, mc) : α × Int) ∈ sem (node ro rl rr rc rh) := by
                    rw [hsemR]
                    exact List.mem_cons_self _ _
                  have hmo_gt : kf o < kf mo := hKR (mo, mc) hmoR
                  have hrest : ∀ e ∈ rest, kf mo < kf e.1 := by
                    have hs := (bstB_iff_sorted kf _).mp hr
                    rw [hsemR] at hs
                    exact fun e he => (List.pairwise_cons.mp hs).1 e he
                  have hInner_gt_mo : ∀ e ∈
                      sem ((remove_ (keyOps kf false)
                        (node ro rl rr rc rh) mo).1), kf mo < kf e.1 := by
                    intro e he
                    have hocc := keyOcc_pos_of_mem kf _ e he
                    have hoccR : 1 ≤ keyOcc kf (kf e.1)
                        (sem (node ro rl rr rc rh)) :=
                      le_trans hocc (imono (kf e.1))
                    obtain ⟨e', he', hk'⟩ := exists_key_of_keyOcc_ne_zero kf
                      (kf e.1) (sem (node ro rl rr rc rh)) (by omega)
                    rw [hsemR] at he'
                    rcases List.mem_cons.mp he' with rfl | he'
                    · exfalso
                      have hk'' : kf mo = kf e.1 := hk'
                      rw [← hk''] at hocc
                      omega
                    · have := hrest e' he'
                      omega
                  refine ⟨?_, ?_, ?_, ?_⟩
                  · rw [bstB_balance]
                    refine (bstB_node_iff kf mo _ _ c h).mpr
                      ⟨?_, hInner_gt_mo, hl, ibst⟩
                    intro e he
                    have := hKL e he
                    omega
                  · intro k
                    rw [sem_balance,
                      keyOcc_sem_node kf k mo (node lo ll lr lc lh)
                        ((remove_ (keyOps kf false)
                          (node ro rl rr rc rh) mo).1) c h,
                      keyOcc_sem_node kf k o (node lo ll lr lc lh)
                        (node ro rl rr rc rh) c h]
                    have h5 := imono k
                    have h6 : 1 ≤ keyOcc kf (kf mo)
                        (sem (node ro rl rr rc rh)) :=
                      keyOcc_pos_of_mem kf _ (mo, mc) hmoR
                    by_cases hk : kf mo = k
                    · have h7 : keyOcc kf k
                          (sem ((remove_ (keyOps kf false)
                            (node ro rl rr rc rh) mo).1)) = 0 := by
                        rw [← hk]
                        exact izero
                      rw [if_pos hk, if_neg (by omega : ¬ kf o = k), h7]
                      rw [hk] at h6
                      omega
                    · rw [if_neg hk]
                      omega
                  · rw [sem_balance, keyOcc_sem_node]
                    have h1 : keyOcc kf (kf x)
                        (sem (node lo ll lr lc lh)) = 0 := hlz
                    have h2 : keyOcc kf (kf x)
                        (sem ((remove_ (keyOps kf false)
                          (node ro rl rr rc rh) mo).1)) = 0 := by
                      have := imono (kf x)
                      omega
                    rw [h1, h2, if_neg (by omega : ¬ kf mo = kf x)]
                  · intro p hp
                    obtain ⟨hpo, hpl, hpr⟩ :=
                      (allKeysB_node_iff kf p o _ _ c h).mp hp
                    rw [allKeysB_balance]
                    refine (allKeysB_node_iff kf p mo _ _ c h).mpr
                      ⟨?_, hpl, ipres p hpr⟩
                    exact (allKeysB_iff kf p _).mp hpr (mo, mc) hmoR

lemma keyOcc_zero_count_search (kf : α → Int) (f : Bool) (t : BTree α)
    (hb : bstB kf t = true) (q : α)
    (hz : keyOcc kf (kf q) (sem t) = 0) :
    count_ (keyOps kf f) t q = 0 ∧ search_ (keyOps kf f) t q = none := by
  constructor
  · rw [count_sem kf f t hb q]
    exact keyCount_eq_zero kf _ _ (ne_of_keyOcc_zero kf _ _ hz)
  · rw [search_sem kf f t hb q]
    exact keyFindObj_eq_none kf _ _ (ne_of_keyOcc_zero kf _ _ hz)

/-- Claim C10: one `remove_` of a present key deletes its node entirely,
whatever its duplicate count: afterwards `count_` answers 0 and `search_`
reports not found.  (Remove never merely decrements the count - the count
field is not consulted by `remove_` at all.) -/
theorem claim_C10_remove_deletes_node (f : Bool) (t : BTree Int) (x : Int)
    (hb : bstB id t = true) (_hp : 0 < count_ (opsInt f) t x) :
    count_ (opsInt f) (remove_ (opsInt f) t x).1 x = 0 ∧
    search_ (opsInt f) (remove_ (opsInt f) t x).1 x = none := by
  rw [opsInt_eq_keyOps]
  obtain ⟨rbst, _, rzero, _⟩ := remove_master id t f x hb
  exact keyOcc_zero_count_search id f _ rbst x rzero

/-- Witness for claim C10 at a concrete input: the tree built by inserting
2, 1, 3, 3 (key 3 present with count 2); a single remove of 3 leaves
count 0, not 1. -/
theorem claim_C10_remove_deletes_node_witness :
    (bstB id (node (2 : Int) (node 1 nil nil 1 0) (node 3 nil nil 2 0) 1 1)
       = true ∧
     0 < count_ (opsInt false)
       (node (2 : Int) (node 1 nil nil 1 0) (node 3 nil nil 2 0) 1 1) 3) ∧
    (count_ (opsInt false)
       (remove_ (opsInt false)
         (node (2 : Int) (node 1 nil nil 1 0) (node 3 nil nil 2 0) 1 1)
         3).1 3 = 0 ∧
     search_ (opsInt false)
       (remove_ (opsInt false)
         (node (2 : Int) (node 1 nil nil 1 0) (node 3 nil nil 2 0) 1 1)
         3).1 3 = none) :=
  ⟨⟨by decide, by decide⟩,
    claim_C10_remove_deletes_node false
      (node 2 (node 1 nil nil 1 0) (node 3 nil nil 2 0) 1 1) 3
      (by decide) (by decide)⟩

/-! Supporting results for the round-trip property: inserting pairwise
distinct keys from an empty container yields a search tree whose in-order
traversal is strictly increasing, whose size is the number of keys, and
which holds exactly the inserted keys.  (The claimed AVL height bound with
the constant 1.44 is not treated here.) -/

/-- Insert a list of objects left to right, as the driver program does. -/
def insertList (ops : Ops α) (t : BTree α) : List α → BTree α
  | [] => t
  | x :: xs => insertList ops (insert_ ops t x).1 xs

lemma keyOcc_semIns_absent (kf : α → Int) (x : α) (k : Int) :
    ∀ l, (∀ e ∈ l, kf e.1 ≠ kf x) →
      keyOcc kf k (semIns kf l x)
        = keyOcc kf k l + (if kf x = k then 1 else 0) := by
  intro l
  induction l with
  | nil => intro _; simp [semIns, keyOcc]
  | cons e l ih =>
      intro hne
      have he := hne e (List.mem_cons_self e l)
      simp only [semIns]
      by_cases h1 : kf x < kf e.1
      · rw [if_pos h1]
        simp only [keyOcc]
        ring
      · rw [if_neg h1, if_pos (by omega)]
        simp only [keyOcc,
          ih fun e' he' => hne e' (List.mem_cons_of_mem e he')]
        ring

lemma semIns_length_absent (kf : α → Int) (x : α) :
    ∀ l, (∀ e ∈ l, kf e.1 ≠ kf x) →
      (semIns kf l x).length = l.length + 1 := by
  intro l
  induction l with
  | nil => intro _; rfl
  | cons e l ih =>
      intro hne
      have he := hne e (List.mem_cons_self e l)
      simp only [semIns]
      by_cases h1 : kf x < kf e.1
      · rw [if_pos h1]
        simp
      · rw [if_neg h1, if_pos (by omega)]
        simp [ih fun e' he' => hne e' (List.mem_cons_of_mem e he')]

lemma size_eq_sem_length :
    ∀ t : BTree α, size_ t = ((sem t).length : Int) := by
  intro t
  induction t with
  | nil => rfl
  | node o l r c h ihl ihr =>
      simp only [size_, sem_node, List.length_append, List.length_cons,
        ihl, ihr]
      push_cast
      ring

lemma mem_inorder_iff_occ (k : Int) (t : BTree Int) :
    k ∈ inorder t ↔ keyOcc id k (sem t) ≠ 0 := by
  rw [inorder_eq_sem_map]
  constructor
  · intro hmem
    obtain ⟨e, he, rfl⟩ := List.mem_map.mp hmem
    have h9 := keyOcc_pos_of_mem id (sem t) e he
    simp only [id_eq] at h9
    omega
  · intro hne
    obtain ⟨e, he, hk⟩ := exists_key_of_keyOcc_ne_zero id k (sem t) hne
    exact List.mem_map.mpr ⟨e, he, hk⟩

/-- Inserting pairwise distinct keys, all absent from the start tree, adds
each of them exactly once. -/
lemma insertList_spec (f : Bool) :
    ∀ (l : List Int) (t : BTree Int), bstB id t = true →
      (∀ y ∈ l, keyOcc id y (sem t) = 0) →
      List.Pairwise (fun a b => a ≠ b) l →
      bstB id (insertList (opsInt f) t l) = true ∧
      (sem (insertList (opsInt f) t l)).length = (sem t).length + l.length ∧
      (∀ k, keyOcc id k (sem (insertList (opsInt f) t l))
        = keyOcc id k (sem t) + (if k ∈ l then 1 else 0)) := by
  intro l
  induction l with
  | nil =>
      intro t hb _ _
      exact ⟨hb, by simp [insertList], fun k => by simp [insertList]⟩
  | cons x xs ih =>
      intro t hb habs hdist
      have hx0 : keyOcc id x (sem t) = 0 :=
        habs x (List.mem_cons_self x xs)
      have hxne : ∀ e ∈ sem t, id e.1 ≠ id x := by
        intro e he hk
        have h9 := keyOcc_pos_of_mem id (sem t) e he
        rw [show id e.1 = id x from hk] at h9
        simp only [id_eq] at h9
        omega
      have hb' : bstB id ((insert_ (keyOps id f) t x).1) = true :=
        bstB_insert id f t x hb
      have hsem' : sem ((insert_ (keyOps id f) t x).1)
          = semIns id (sem t) x := sem_insert id f t hb x
      rcases List.pairwise_cons.mp hdist with ⟨hxxs, hxs⟩
      have habs' : ∀ y ∈ xs, keyOcc id y
          (sem ((insert_ (keyOps id f) t x).1)) = 0 := by
        intro y hy
        rw [hsem', keyOcc_semIns_absent id x y (sem t) hxne,
          habs y (List.mem_cons_of_mem x hy),
          if_neg (by exact fun hc => hxxs y hy hc)]
      rw [show insertList (opsInt f) t (x :: xs)
          = insertList (opsInt f) ((insert_ (opsInt f) t x).1) xs from rfl,
        opsInt_eq_keyOps]
      obtain ⟨rb, rlen, rocc⟩ := ih ((insert_ (keyOps id f) t x).1)
        hb' habs' hxs
      rw [opsInt_eq_keyOps] at rb rlen rocc
      refine ⟨rb, ?_, ?_⟩
      · rw [rlen, hsem', semIns_length_absent id x (sem t) hxne]
        simp [List.length_cons]
        omega
      · intro k
        rw [rocc k, hsem', keyOcc_semIns_absent id x k (sem t) hxne]
        simp only [id_eq]
        by_cases hk1 : x = k
        · subst hk1
          rw [if_pos rfl, if_neg (fun hc => hxxs x hc rfl),
            if_pos (List.mem_cons_self x xs)]
        · rw [if_neg hk1]
          by_cases hk2 : k ∈ xs
          · rw [if_pos hk2, if_pos (List.mem_cons_of_mem x hk2)]
          · rw [if_neg hk2, if_neg (fun hc => by
              rcases List.mem_cons.mp hc with h9 | h9
              · exact hk1 h9.symm
              · exact hk2 h9)]

/-- Round-trip without the height bound: inserting `N` pairwise distinct
integers into an empty container yields a search tree whose in-order
traversal is strictly increasing, whose `size_` is `N`, and which contains
exactly the inserted keys. -/
theorem insertList_sorted_size (f : Bool) (l : List Int)
    (hd : List.Pairwise (fun a b => a ≠ b) l) :
    bstB id (insertList (opsInt f) nil l) = true ∧
    List.Pairwise (fun a b => a < b) (inorder (insertList (opsInt f) nil l)) ∧
    size_ (insertList (opsInt f) nil l) = (l.length : Int) ∧
    (∀ k, k ∈ inorder (insertList (opsInt f) nil l) ↔ k ∈ l) := by
  obtain ⟨rb, rlen, rocc⟩ := insertList_spec f l nil rfl
    (fun y hy => rfl) hd
  refine ⟨rb, ?_, ?_, ?_⟩
  · have hs := (bstB_iff_sorted id _).mp rb
    rw [inorder_eq_sem_map]
    exact List.Pairwise.map _ (fun a b hab => hab) hs
  · rw [size_eq_sem_length, rlen]
    simp
  · intro k
    rw [mem_inorder_iff_occ, rocc k]
    simp only [keyOcc]
    by_cases hk : k ∈ l
    · simp [hk]
    · simp [hk]

end Bst
